import Mathlib

/-!
# Verification of the splaycompress adaptive splay-tree codec

Shallow embedding of the Rust sources (`src/common.rs`, `src/bits.rs`,
`src/symbol.rs`, `src/splay.rs`, `src/lib.rs`, `src/bin/jan.rs`).

Machine integers (`u8`, `u16`, `usize`) are embedded as `Nat`; the arena's
fixed array of internal nodes is embedded as a total function `Nat → Node`
(indexing past the end of the Rust array would panic and never happens on the
ids the code stores).  Rust panics (`assert!`, `unwrap`, descending from a
leaf) are embedded as the error value `Err.panicked`; I/O errors of kind
`UnexpectedEof` as `Err.unexpectedEof`.  `while`/`loop` constructs that are
not structurally recursive take an explicit fuel argument; fuel exhaustion is
mapped to `Err.panicked` and the theorems show the chosen fuel is never
exhausted.
-/

namespace Splaycompress

/-- Error outcomes: a Rust `io::Error` of kind `UnexpectedEof`, or a panic. -/
inductive Err where
  | unexpectedEof
  | panicked
  deriving DecidableEq, Repr

/-- `common.rs`: `enum NodeRef<T> { Internal(T), Leaf(T) }`. -/
inductive NodeRef where
  | internal (v : Nat)
  | leaf (v : Nat)
  deriving DecidableEq, Repr

/-- `common.rs`: `NodeRef::as_internal`. -/
def NodeRef.asInternal : NodeRef → Option Nat
  | .internal v => some v
  | .leaf _ => none

/-- `common.rs`: `NodeRef::as_leaf`. -/
def NodeRef.asLeaf : NodeRef → Option Nat
  | .leaf v => some v
  | .internal _ => none

/-- `splay.rs`: `Splayable::is_leaf` predicate on the current node ref. -/
def NodeRef.isLeaf : NodeRef → Bool
  | .leaf _ => true
  | .internal _ => false

/-- `common.rs`: `enum Direction { Left, Right }`. -/
inductive Direction where
  | left
  | right
  deriving DecidableEq, Repr

/-- `common.rs`: `Direction::opposite`. -/
def Direction.opposite : Direction → Direction
  | .left => .right
  | .right => .left

/-- `common.rs`: `Direction::from_bit`. -/
def Direction.fromBit (bit : Bool) : Direction :=
  if bit then .right else .left

/-- `common.rs`: `Direction::to_bit`. -/
def Direction.toBit (d : Direction) : Bool :=
  d = Direction.right

/-- `common.rs`: `struct Node<T> { left: NodeRef<T>, right: NodeRef<T> }`. -/
structure Node where
  left : NodeRef
  right : NodeRef
  deriving DecidableEq, Repr

/-- `common.rs`: `Node::arm`. -/
def Node.arm (n : Node) : Direction → NodeRef
  | .left => n.left
  | .right => n.right

/-- `common.rs`: `Node::arm_mut` (as a functional update). -/
def Node.armSet (n : Node) : Direction → NodeRef → Node
  | .left, r => { n with left := r }
  | .right, r => { n with right := r }

/-- `splay.rs`: the arena of internal nodes plus the root index
(`Arena8` / `Arena16`); the backing array is embedded as a total function. -/
structure Arena where
  nodes : Nat → Node
  root : Nat

/-- Write one arm of one internal node (`*self.arena.node_mut(i).arm_mut(d) = r`). -/
def Arena.updArm (a : Arena) (i : Nat) (d : Direction) (r : NodeRef) : Arena :=
  { a with nodes := fun j => if j = i then (a.nodes i).armSet d r else a.nodes j }

/-- Write the root index (`*self.arena.root_idx_mut() = v`). -/
def Arena.updRoot (a : Arena) (v : Nat) : Arena :=
  { a with root := v }

/-- `splay.rs`: number of trailing one bits (`usize::trailing_ones`),
with structural fuel (the recursion halves the argument). -/
def trailingOnesAux : Nat → Nat → Nat
  | 0, _ => 0
  | fuel + 1, n => if n % 2 = 1 then trailingOnesAux fuel (n / 2) + 1 else 0

/-- `usize::trailing_ones` for the sizes in play (fuel `n` always suffices). -/
def trailingOnes (n : Nat) : Nat :=
  trailingOnesAux n n

/-- `splay.rs`: the node at index `i` of `Arena8::new_uniform` (`max = 255`,
so `!(1 << (level-1))` on `u8` is `255 - 2^(level-1)`), and likewise for the
16-bit arena with `max = 65535`. -/
def uniformNode (max i : Nat) : Node :=
  let level := trailingOnes i
  if level = 0 then
    { left := NodeRef.leaf i, right := NodeRef.leaf (i + 1) }
  else
    let masked := Nat.land i (max - 2 ^ (level - 1))
    let addedBit := 2 ^ level
    { left := NodeRef.internal masked, right := NodeRef.internal (Nat.lor masked addedBit) }

/-- `splay.rs`: `Arena8::new_uniform` generalized over the maximal symbol
(`max = u8::MAX = 255`); root index `max / 2`. -/
def mkUniform (max : Nat) : Arena :=
  { nodes := uniformNode max, root := max / 2 }

/-- `splay.rs`: `Arena8::new_uniform` (`N = 256`). -/
def Arena8.newUniform : Arena := mkUniform 255

/-- Modelled from the spec: `Arena16::new_uniform` is referenced by
`lib.rs` but its definition is not in the sources; §3 of the spec fixes the
identical canonical shape with N = 65536 and root index 32767, which is
`mkUniform 65535`. -/
def Arena16.newUniform : Arena := mkUniform 65535

/-- `splay.rs`: `is_arm_consistent` / `is_subtree_consistent`, fused into one
fuel-indexed Boolean recursion on an arm (`NodeRef`).  The source recurses on
`is_subtree_consistent(child, lo, hi)` for internal arms and compares
`cover_min == leaf == cover_max_incl` for leaf arms; fuel bounds the recursion
depth (the cover width shrinks at every level on consistent trees). -/
def armConsistentB (a : Arena) : Nat → NodeRef → Nat → Nat → Bool
  | 0, _, _, _ => false
  | _fuel + 1, .leaf s, lo, hi => decide (lo = s) && decide (s = hi)
  | fuel + 1, .internal i, lo, hi =>
    let indexConsistent := decide (lo ≤ i) && decide (i < hi)
    let leftConsistent := armConsistentB a fuel (a.nodes i).left lo i
    let rightConsistent := armConsistentB a fuel (a.nodes i).right (i + 1) hi
    indexConsistent && leftConsistent && rightConsistent

/-- `splay.rs`: `NodeArena::is_consistent` — the structural consistency check
`is_subtree_consistent(root, 0, max)`, with fuel `max + 1` (enough for any
tree whose covers shrink, in particular every consistent tree). -/
def Arena.isConsistentB (max : Nat) (a : Arena) : Bool :=
  armConsistentB a (max + 1) (NodeRef.internal a.root) 0 max

/-- Walker ancestor frame: `(internal_id, direction_taken_from_it)`.  The
Rust `Vec` pushes/pops at the end; the Lean list keeps the top at the head. -/
abbrev Frame := Nat × Direction

/-- `splay.rs`: `Splayable::current_value`. -/
def currentValue : NodeRef → Nat
  | .internal v => v
  | .leaf v => v

/-- `splay.rs`: `Splayable::go` — panics (`.error .panicked`) when the current
node is a leaf; otherwise pushes the frame and steps into the chosen arm. -/
def go (a : Arena) (node : NodeRef) (stack : List Frame) (d : Direction) :
    Except Err (NodeRef × List Frame) :=
  match node with
  | .leaf _ => .error .panicked
  | .internal v => .ok ((a.nodes v).arm d, (v, d) :: stack)

/-- `splay.rs`: the body of `find_deep_internal`'s `while level < min_length`
loop: each round asserts the candidate list is non-empty, then replaces it by
all internal children of its members (left arm then right arm, in order). -/
def findDeepLoop (a : Arena) : Nat → List Nat → Except Err (List Nat)
  | 0, cands => .ok cands
  | rounds + 1, cands =>
    if cands.isEmpty then .error .panicked
    else
      findDeepLoop a rounds
        (cands.flatMap fun c =>
          ([Direction.left, Direction.right].filterMap fun d =>
            ((a.nodes c).arm d).asInternal))
  termination_by rounds _ => rounds

/-- `splay.rs`: `Splayable::find_deep_internal` — asserts the walker sits on
an internal node, runs `min_length` breadth-first expansion rounds keeping
only internal children, asserts survivors exist, and returns the first. -/
def findDeepInternal (a : Arena) (node : NodeRef) (minLength : Nat) : Except Err Nat :=
  match node with
  | .leaf _ => .error .panicked
  | .internal v =>
    match findDeepLoop a minLength [v] with
    | .error e => .error e
    | .ok [] => .error .panicked
    | .ok (c :: _) => .ok c

/-- One zig-zig or zig-zag rotation pair of `splay_internal`, performed on
the arena `a1` in which the pointer to the grandparent was already redirected
to `n`; `pd`/`gd` are the directions recorded in the parent/grandparent
frames.  Pointer rewiring exactly as in the source. -/
def rotateOnce (a1 : Arena) (n p g : Nat) (pd gd : Direction) : Arena :=
  if gd = pd then
    -- zig-zig
    let subtreeB := (a1.nodes p).arm pd.opposite
    let subtreeC := (a1.nodes n).arm pd.opposite
    let a2 := a1.updArm p pd.opposite (NodeRef.internal g)
    let a3 := a2.updArm g gd subtreeB
    let a4 := a3.updArm n pd.opposite (NodeRef.internal p)
    a4.updArm p pd subtreeC
  else
    -- zig-zag
    let subtreeB := (a1.nodes n).arm pd
    let subtreeC := (a1.nodes n).arm gd
    let a2 := a1.updArm n pd (NodeRef.internal g)
    let a3 := a2.updArm g gd subtreeB
    let a4 := a3.updArm n gd (NodeRef.internal p)
    a4.updArm p pd subtreeC

/-- The final zig rotation of `splay_internal` (root already moved to `n`). -/
def zigOnce (a1 : Arena) (n p : Nat) (pd : Direction) : Arena :=
  let subtreeB := (a1.nodes n).arm pd.opposite
  let a2 := a1.updArm n pd.opposite (NodeRef.internal p)
  a2.updArm p pd subtreeB

/-- `splay.rs`: `Splayable::splay_internal` — the zig-zig / zig-zag loop over
ancestor pairs followed by the final zig; `n` is the id of the node being
splayed to the root.  All `assert!`/`assert_eq!` failures map to
`.error .panicked`.  Structural recursion on the stack (two pops per round). -/
def splayInternal (a : Arena) (n : Nat) : List Frame → Except Err Arena
  | [] => .ok a
  | [(p, pd)] =>
    -- final zig: checks, then root update and single rotation
    if (a.nodes p).arm pd ≠ NodeRef.internal n then .error .panicked
    else if a.root ≠ p then .error .panicked
    else .ok (zigOnce (a.updRoot n) n p pd)
  | (p, pd) :: (g, gd) :: rest =>
    if (a.nodes p).arm pd ≠ NodeRef.internal n then .error .panicked
    else if (a.nodes g).arm gd ≠ NodeRef.internal p then .error .panicked
    else
      -- update the pointer to the grandparent (great-grandparent arm or root),
      -- then rotate and continue up the stack
      match rest with
      | (ggp, ggpDir) :: _ =>
        if (a.nodes ggp).arm ggpDir ≠ NodeRef.internal g then .error .panicked
        else
          splayInternal (rotateOnce (a.updArm ggp ggpDir (NodeRef.internal n)) n p g pd gd)
            n rest
      | [] => splayInternal (rotateOnce (a.updRoot n) n p g pd gd) n rest

/-- `splay.rs`: `Splayable::splay_parent_of_leaf` — asserts the current node
is a leaf, pops the parent frame (panicking on an empty stack), makes the
parent current and splays it to the root.  Returns the full walker state:
new arena, current node, and (always empty) ancestor stack. -/
def splayParentOfLeaf (a : Arena) (node : NodeRef) (stack : List Frame) :
    Except Err (Arena × NodeRef × List Frame) :=
  match node, stack with
  | .leaf _, (p, _) :: rest =>
    match splayInternal a p rest with
    | .error e => .error e
    | .ok a' => .ok (a', NodeRef.internal p, [])
  | _, _ => .error .panicked

/-! ## Bit framing (`bits.rs`) -/

/-- `bits.rs`: `BitWriter` state; `out` is the byte sink contents. -/
structure BW where
  nbits : Nat
  buf : Nat
  out : List Nat
  deriving Repr, DecidableEq

/-- A fresh `BitWriter` over an empty sink. -/
def BW.init : BW := ⟨0, 0, []⟩

/-- `bits.rs`: `BitWriter::write_bit` (the `u8` shift is mod 256; `|= 1`
after a left shift adds 1). -/
def BW.writeBit (bw : BW) (set : Bool) : BW :=
  let buf := bw.buf * 2 % 256
  let buf := if set then buf + 1 else buf
  let nbits := bw.nbits + 1
  if nbits = 8 then
    { nbits := 0, buf := 0, out := bw.out ++ [buf] }
  else
    { bw with nbits := nbits, buf := buf }

/-- `bits.rs`: `BitWriter::padding_needed`. -/
def BW.paddingNeeded (bw : BW) : Nat :=
  if bw.nbits > 0 then 8 - bw.nbits else 0

/-- `bits.rs`: `BitWriter::flush` — asserts the bit buffer is empty and
returns the flushed byte sink. -/
def BW.flush (bw : BW) : Except Err (List Nat) :=
  if bw.nbits = 0 then .ok bw.out else .error .panicked

/-- `bits.rs`: `BitReader` state; `bytes` is what remains of the source. -/
structure BR where
  bytes : List Nat
  nbits : Nat
  buf : Nat
  deriving Repr, DecidableEq

/-- `bits.rs`: `BitReader::read_bit` — refills from the source when the bit
buffer is empty (surfacing end-of-file as `UnexpectedEof`), then consumes the
most significant buffered bit. -/
def BR.readBit (br : BR) : Except Err (Bool × BR) :=
  match (if br.nbits = 0 then
      match br.bytes with
      | [] => Except.error Err.unexpectedEof
      | b :: rest => .ok (⟨rest, 8, b⟩ : BR)
    else .ok br) with
  | .error e => .error e
  | .ok br => .ok (br.buf.testBit 7, ⟨br.bytes, br.nbits - 1, br.buf * 2 % 256⟩)

/-! ## Symbol codec (`symbol.rs`)

Each reader is a function from the remaining source bytes to an optional
symbol plus the rest; each writer is the list of bytes one symbol emits. -/

/-- `symbol.rs`: `SymbolRead8::read_one` — one byte or clean end. -/
def readOne8 (r : List Nat) : Except Err (Option (Nat × List Nat)) :=
  match r with
  | [] => .ok none
  | b :: rest => .ok (some (b, rest))

/-- `symbol.rs`: `read_two_bytes` — zero bytes is a clean end, one byte is
`UnexpectedEof`, two bytes succeed. -/
def readTwoBytes (r : List Nat) : Except Err (Option ((Nat × Nat) × List Nat)) :=
  match r with
  | [] => .ok none
  | [_] => .error .unexpectedEof
  | b1 :: b2 :: rest => .ok (some ((b1, b2), rest))

/-- `symbol.rs`: `SymbolRead16BE::read_one` (`u16::from_be_bytes`). -/
def readOne16BE (r : List Nat) : Except Err (Option (Nat × List Nat)) :=
  match readTwoBytes r with
  | .error e => .error e
  | .ok none => .ok none
  | .ok (some ((b1, b2), rest)) => .ok (some (b1 * 256 + b2, rest))

/-- `symbol.rs`: `SymbolRead16LE::read_one` (`u16::from_le_bytes`). -/
def readOne16LE (r : List Nat) : Except Err (Option (Nat × List Nat)) :=
  match readTwoBytes r with
  | .error e => .error e
  | .ok none => .ok none
  | .ok (some ((b1, b2), rest)) => .ok (some (b2 * 256 + b1, rest))

/-- `symbol.rs`: `SymbolWrite8::write_one`. -/
def writeOne8 (s : Nat) : List Nat := [s]

/-- `symbol.rs`: `SymbolWrite16BE::write_one` (`u16::to_be_bytes`). -/
def writeOne16BE (s : Nat) : List Nat := [s / 256, s % 256]

/-- `symbol.rs`: `SymbolWrite16LE::write_one` (`u16::to_le_bytes`). -/
def writeOne16LE (s : Nat) : List Nat := [s % 256, s / 256]

/-! ## Encoder and decoder loops (`lib.rs`) -/

/-- `lib.rs` (`compress_raw`): the inner `while !walker.is_leaf()` descent —
compare the symbol with the current value, descend, write the bit.  Fuel
bounds the loop (the cover width shrinks on consistent trees). -/
def descendLoop (s : Nat) :
    Nat → Arena → NodeRef → List Frame → BW → Except Err (NodeRef × List Frame × BW)
  | 0, _, _, _, _ => .error .panicked
  | fuel + 1, a, node, stack, bw =>
    match node with
    | .leaf _ => .ok (node, stack, bw)
    | .internal _ =>
      let bit := decide (s > currentValue node)
      match go a node stack (Direction.fromBit bit) with
      | .error e => .error e
      | .ok (node', stack') => descendLoop s fuel a node' stack' (bw.writeBit bit)

/-- `lib.rs` (`compress_raw`): the per-symbol loop — read a symbol, descend
to its leaf writing bits, splay the parent of that leaf.  Returns the walker
state and bit writer at clean end of input.  Fuel bounds the loop (each
round consumes source bytes). -/
def compressLoop (rd : List Nat → Except Err (Option (Nat × List Nat))) (dFuel : Nat) :
    Nat → List Nat → Arena → NodeRef → List Frame → BW →
    Except Err (Arena × NodeRef × List Frame × BW)
  | 0, _, _, _, _, _ => .error .panicked
  | fuel + 1, r, a, node, stack, bw =>
    match rd r with
    | .error e => .error e
    | .ok none => .ok (a, node, stack, bw)
    | .ok (some (s, r')) =>
      match descendLoop s dFuel a node stack bw with
      | .error e => .error e
      | .ok (node1, stack1, bw1) =>
        match splayParentOfLeaf a node1 stack1 with
        | .error e => .error e
        | .ok (a2, node2, stack2) =>
          compressLoop rd dFuel fuel r' a2 node2 stack2 bw1

/-- `lib.rs` (`compress_raw`): the end-of-stream padding loop — repeat
`need_pad_bits` times: compare the goal id with the current value, descend,
assert the walker is not on a leaf and padding is still needed, write the
bit. -/
def padLoop (goal : Nat) :
    Nat → Arena → NodeRef → List Frame → BW → Except Err (NodeRef × List Frame × BW)
  | 0, _, node, stack, bw => .ok (node, stack, bw)
  | k + 1, a, node, stack, bw =>
    let bit := decide (goal > currentValue node)
    match go a node stack (Direction.fromBit bit) with
    | .error e => .error e
    | .ok (node', stack') =>
      if node'.isLeaf then .error .panicked
      else if bw.paddingNeeded = 0 then .error .panicked
      else padLoop goal k a node' stack' (bw.writeBit bit)

/-- `lib.rs`: `compress_raw` — run the symbol loop from the arena root, then
pad the final byte by descending toward a deep internal node, then flush. -/
def compressRaw (rd : List Nat → Except Err (Option (Nat × List Nat)))
    (dFuel : Nat) (a : Arena) (r : List Nat) : Except Err (List Nat) :=
  match compressLoop rd dFuel (r.length + 1) r a (NodeRef.internal a.root) [] BW.init with
  | .error e => .error e
  | .ok (a1, node1, stack1, bw1) =>
    if bw1.paddingNeeded > 0 then
      match findDeepInternal a1 node1 bw1.paddingNeeded with
      | .error e => .error e
      | .ok goal =>
        match padLoop goal bw1.paddingNeeded a1 node1 stack1 bw1 with
        | .error e => .error e
        | .ok (_, _, bw2) =>
          if bw2.paddingNeeded ≠ 0 then .error .panicked  -- assert_eq!(padding_needed(), 0)
          else bw2.flush
    else
      bw1.flush

/-- `lib.rs` (`decompress_raw`): the main decoder loop — read a bit (clean
end on `UnexpectedEof`), descend, and when a leaf is reached emit its symbol
and splay back to the root.  Fuel bounds the loop (each round reads a bit). -/
def decompressLoop (emit : Nat → List Nat) :
    Nat → Arena → NodeRef → List Frame → BR → List Nat → Except Err (List Nat)
  | 0, _, _, _, _, _ => .error .panicked
  | fuel + 1, a, node, stack, br, out =>
    match br.readBit with
    | .error Err.unexpectedEof => .ok out
    | .error e => .error e
    | .ok (bit, br') =>
      match go a node stack (Direction.fromBit bit) with
      | .error e => .error e
      | .ok (node', stack') =>
        if node'.isLeaf then
          match splayParentOfLeaf a node' stack' with
          | .error e => .error e
          | .ok (a2, node2, stack2) =>
            decompressLoop emit fuel a2 node2 stack2 br' (out ++ emit (currentValue node'))
        else
          decompressLoop emit fuel a node' stack' br' out

/-- `lib.rs`: `decompress_raw` — run the decoder loop from the arena root on
a fresh bit reader over the source bytes. -/
def decompressRaw (emit : Nat → List Nat) (a : Arena) (r : List Nat) :
    Except Err (List Nat) :=
  decompressLoop emit (8 * r.length + 1) a (NodeRef.internal a.root) [] ⟨r, 0, 0⟩ []

/-- `lib.rs`: `compress8`. -/
def compress8 (r : List Nat) : Except Err (List Nat) :=
  compressRaw readOne8 256 Arena8.newUniform r

/-- `lib.rs`: `compress16be`. -/
def compress16be (r : List Nat) : Except Err (List Nat) :=
  compressRaw readOne16BE 65536 Arena16.newUniform r

/-- `lib.rs`: `compress16le`. -/
def compress16le (r : List Nat) : Except Err (List Nat) :=
  compressRaw readOne16LE 65536 Arena16.newUniform r

/-- `lib.rs`: `decompress8`. -/
def decompress8 (r : List Nat) : Except Err (List Nat) :=
  decompressRaw writeOne8 Arena8.newUniform r

/-- `lib.rs`: `decompress16be`. -/
def decompress16be (r : List Nat) : Except Err (List Nat) :=
  decompressRaw writeOne16BE Arena16.newUniform r

/-- `lib.rs`: `decompress16le`. -/
def decompress16le (r : List Nat) : Except Err (List Nat) :=
  decompressRaw writeOne16LE Arena16.newUniform r

/-! ## CLI front end (`src/bin/jan.rs`) -/

/-- The two actions the CLI can take on stdin/stdout. -/
inductive CliAction where
  | runCompress
  | runDecompress
  deriving DecidableEq, Repr

/-- `jan.rs` (`main`): which core function is invoked given the parsed
`--decompress` flag: `if args.decompress { compress(..) } else { decompress(..) }`. -/
def janDispatch (decompressFlag : Bool) : CliAction :=
  if decompressFlag then .runCompress else .runDecompress

/-! ## Specification-layer definitions used by the proofs -/

/-- The structural consistency invariant of `splay.rs` (`is_arm_consistent`)
as an inductive proposition: the arm `r` covers exactly the symbol interval
`[lo, hi]`, every internal index lies inside its cover, the left child covers
`[lo, i]` and the right child `[i+1, hi]`. -/
inductive Covers (a : Arena) : NodeRef → Nat → Nat → Prop where
  | leaf (s : Nat) : Covers a (.leaf s) s s
  | internal (i lo hi : Nat) :
      lo ≤ i → i < hi →
      Covers a (a.nodes i).left lo i →
      Covers a (a.nodes i).right (i + 1) hi →
      Covers a (.internal i) lo hi

/-- Ancestor-stack consistency (§3 invariant 4): the walker's stack (top
frame first) is a genuine descent path; the hole below the stack covers
`[lo, hi]` and is referenced as `r` by the top frame's arm; every frame also
carries its sibling subtree's consistency. -/
def ChainUp (a : Arena) (max : Nat) : NodeRef → Nat → Nat → List Frame → Prop
  | r, lo, hi, [] => r = NodeRef.internal a.root ∧ lo = 0 ∧ hi = max
  | r, lo, hi, (q, Direction.left) :: rest =>
      (a.nodes q).left = r ∧ hi = q ∧
      ∃ qhi, q < qhi ∧ Covers a (a.nodes q).right (q + 1) qhi ∧
        ChainUp a max (NodeRef.internal q) lo qhi rest
  | r, lo, hi, (q, Direction.right) :: rest =>
      (a.nodes q).right = r ∧ lo = q + 1 ∧
      ∃ qlo, qlo ≤ q ∧ Covers a (a.nodes q).left qlo q ∧
        ChainUp a max (NodeRef.internal q) qlo hi rest

/-- The most significant `n` bits of `v` (MSB first), `v` viewed as an
`n`-bit number. -/
def lowBits (n v : Nat) : List Bool :=
  (List.range n).map fun j => v.testBit (n - 1 - j)

/-- The eight bits of a byte, MSB first — the wire order of `bits.rs`. -/
def byteBits (b : Nat) : List Bool := lowBits 8 b

/-- The pending bits of a `BitReader` buffer: the top `nbits` bits of `buf`
(the buffer is consumed MSB first and shifted left). -/
def bufBits (nbits buf : Nat) : List Bool :=
  (List.range nbits).map fun j => buf.testBit (7 - j)

/-- All bits a `BitReader` will still deliver: pending buffer bits, then the
bits of the remaining source bytes. -/
def BR.bits (br : BR) : List Bool :=
  bufBits br.nbits br.buf ++ br.bytes.flatMap byteBits

/-- All bits a `BitWriter` has accepted: the bits of the emitted bytes
followed by the pending buffer bits. -/
def BW.bits (bw : BW) : List Bool :=
  bw.out.flatMap byteBits ++ lowBits bw.nbits bw.buf

/-- Writing a whole list of bits, one `write_bit` at a time. -/
def BW.writeMany (bw : BW) (bits : List Bool) : BW :=
  bits.foldl BW.writeBit bw

/-- The value of an MSB-first bit string (how `BitWriter` accumulates its
buffer). -/
def bitsToNat (bits : List Bool) : Nat :=
  bits.foldl (fun acc b => acc * 2 + (if b then 1 else 0)) 0

/-- Well-formedness of a `BitWriter` state (maintained from `BW.init` on):
fewer than eight pending bits, and the buffer holds exactly those bits. -/
def BW.wfInv (bw : BW) : Prop := bw.nbits ≤ 7 ∧ bw.buf < 2 ^ bw.nbits

/-- The decoder loop of `decompress_raw` with the bit reader abstracted to
the list of bits it will deliver (`BR.bits`); related to `decompressLoop` by
`decompressLoop_eq_decodeBits`.  Structurally recursive on the bits, so it
needs no fuel. -/
def decodeBits (emit : Nat → List Nat) :
    Arena → NodeRef → List Frame → List Bool → List Nat → Except Err (List Nat)
  | _, _, _, [], out => .ok out
  | a, node, stack, bit :: bits, out =>
    match go a node stack (Direction.fromBit bit) with
    | .error e => .error e
    | .ok (node', stack') =>
      if node'.isLeaf then
        match splayParentOfLeaf a node' stack' with
        | .error e => .error e
        | .ok (a2, node2, stack2) =>
          decodeBits emit a2 node2 stack2 bits (out ++ emit (currentValue node'))
      else
        decodeBits emit a node' stack' bits out

/-- The bit string the encoder's descent loop emits for symbol `s` from a
given node: `bit = (s > current_value)` at every internal node on the way. -/
def dirPath (a : Arena) (s : Nat) : Nat → NodeRef → List Bool
  | 0, _ => []
  | _ + 1, .leaf _ => []
  | fuel + 1, .internal v =>
    let bit := decide (s > v)
    bit :: dirPath a s fuel ((a.nodes v).arm (Direction.fromBit bit))

/-- Follow a direction sequence from internal node `v`, requiring every node
on the way (including the last) to be internal. -/
def followInternal (a : Arena) : Nat → List Direction → Option Nat
  | v, [] => some v
  | v, d :: rest =>
    match (a.nodes v).arm d with
    | .internal c => followInternal a c rest
    | .leaf _ => none

/-- Does this bit pattern, descended from internal node `v`, stay on internal
nodes throughout?  (Exactly the patterns the encoder may emit as padding.) -/
def staysInternal (a : Arena) : Nat → List Bool → Bool
  | _, [] => true
  | v, b :: rest =>
    match (a.nodes v).arm (Direction.fromBit b) with
    | .internal c => staysInternal a c rest
    | .leaf _ => false

/-- A sequence of `go` descents (the walker's descent phase). -/
def goSeq (a : Arena) : NodeRef → List Frame → List Direction →
    Except Err (NodeRef × List Frame)
  | node, stack, [] => .ok (node, stack)
  | node, stack, d :: rest =>
    match go a node stack d with
    | .error e => .error e
    | .ok (node', stack') => goSeq a node' stack' rest

/-! ## Basic lemmas about the embedding -/

theorem Arena.nodes_updArm (a : Arena) (i : Nat) (d : Direction) (r : NodeRef) (j : Nat) :
    (a.updArm i d r).nodes j = if j = i then (a.nodes i).armSet d r else a.nodes j := rfl

theorem Arena.root_updArm (a : Arena) (i : Nat) (d : Direction) (r : NodeRef) :
    (a.updArm i d r).root = a.root := rfl

theorem Arena.nodes_updRoot (a : Arena) (v j : Nat) :
    (a.updRoot v).nodes j = a.nodes j := rfl

theorem Arena.root_updRoot (a : Arena) (v : Nat) : (a.updRoot v).root = v := rfl

theorem Node.arm_armSet_self (n : Node) (d : Direction) (r : NodeRef) :
    (n.armSet d r).arm d = r := by cases d <;> rfl

theorem Node.arm_armSet_opp (n : Node) (d : Direction) (r : NodeRef) :
    (n.armSet d r).arm d.opposite = n.arm d.opposite := by cases d <;> rfl

theorem Direction.fromBit_toBit (d : Direction) : Direction.fromBit d.toBit = d := by
  cases d <;> rfl

theorem Direction.opposite_opposite (d : Direction) : d.opposite.opposite = d := by
  cases d <;> rfl

/-! ## The consistency invariant: inversions, framing, and the Boolean check -/

theorem Covers.lo_le_hi {a : Arena} {r : NodeRef} {lo hi : Nat}
    (h : Covers a r lo hi) : lo ≤ hi := by
  cases h with
  | leaf s => exact le_rfl
  | internal i lo hi h1 h2 _ _ => omega

theorem Covers.internal_bounds {a : Arena} {i lo hi : Nat}
    (h : Covers a (.internal i) lo hi) : lo ≤ i ∧ i < hi := by
  cases h with
  | internal i lo hi h1 h2 _ _ => exact ⟨h1, h2⟩

theorem Covers.internal_left {a : Arena} {i lo hi : Nat}
    (h : Covers a (.internal i) lo hi) : Covers a (a.nodes i).left lo i := by
  cases h with
  | internal i lo hi _ _ hl _ => exact hl

theorem Covers.internal_right {a : Arena} {i lo hi : Nat}
    (h : Covers a (.internal i) lo hi) : Covers a (a.nodes i).right (i + 1) hi := by
  cases h with
  | internal i lo hi _ _ _ hr => exact hr

theorem Covers.leaf_eq {a : Arena} {s lo hi : Nat}
    (h : Covers a (.leaf s) lo hi) : lo = s ∧ hi = s := by
  cases h with
  | leaf s => exact ⟨rfl, rfl⟩

/-- `Covers` only reads the arena inside the covered id range `[lo, hi)`:
agreeing arenas give the same covers. -/
theorem Covers.congr_arena {a a' : Arena} {r : NodeRef} {lo hi : Nat}
    (h : Covers a r lo hi)
    (hag : ∀ j, lo ≤ j → j < hi → a'.nodes j = a.nodes j) : Covers a' r lo hi := by
  induction h with
  | leaf s => exact .leaf s
  | internal i lo hi h1 h2 _ _ ihl ihr =>
    have heq : a'.nodes i = a.nodes i := hag i h1 h2
    refine Covers.internal i lo hi h1 h2 ?_ ?_
    · rw [heq]
      exact ihl fun j hj1 hj2 => hag j hj1 (by omega)
    · rw [heq]
      exact ihr fun j hj1 hj2 => hag j (by omega) hj2

/-- `ChainUp` only reads the arena *outside* the hole range `[lo, hi)` (the
ancestors and their sibling subtrees): mutating inside the hole keeps it. -/
theorem ChainUp.congr_outside {a a' : Arena} {max : Nat} :
    ∀ {stack : List Frame} {r : NodeRef} {lo hi : Nat},
    ChainUp a max r lo hi stack →
    a'.root = a.root →
    (∀ j, j < lo ∨ hi ≤ j → a'.nodes j = a.nodes j) →
    ChainUp a' max r lo hi stack := by
  intro stack
  induction stack with
  | nil =>
    intro r lo hi h hroot _
    obtain ⟨h1, h2, h3⟩ := h
    exact ⟨by rw [hroot]; exact h1, h2, h3⟩
  | cons f rest ih =>
    obtain ⟨q, d⟩ := f
    intro r lo hi h hroot hag
    cases d with
    | left =>
      obtain ⟨harm, hhi, qhi, hq, hcov, hchain⟩ := h
      have hqeq : a'.nodes q = a.nodes q := hag q (by omega)
      refine ⟨by rw [hqeq]; exact harm, hhi, qhi, hq, ?_, ?_⟩
      · rw [hqeq]
        exact hcov.congr_arena fun j hj1 hj2 => hag j (by omega)
      · exact ih hchain hroot fun j hj => hag j (by omega)
    | right =>
      obtain ⟨harm, hlo, qlo, hq, hcov, hchain⟩ := h
      have hqeq : a'.nodes q = a.nodes q := hag q (by omega)
      refine ⟨by rw [hqeq]; exact harm, hlo, qlo, hq, ?_, ?_⟩
      · rw [hqeq]
        exact hcov.congr_arena fun j hj1 hj2 => hag j (by omega)
      · exact ih hchain hroot fun j hj => by
          rcases hj with hj | hj
          · exact hag j (Or.inl (by omega))
          · rcases Nat.lt_or_ge j lo with hj2 | hj2
            · exact hag j (Or.inl hj2)
            · exact hag j (Or.inr (by omega))

theorem covers_of_armConsistentB {a : Arena} :
    ∀ fuel (r : NodeRef) (lo hi : Nat),
      armConsistentB a fuel r lo hi = true → Covers a r lo hi := by
  intro fuel
  induction fuel with
  | zero => intro r lo hi h; simp [armConsistentB] at h
  | succ n ih =>
    intro r lo hi h
    match r with
    | .leaf s =>
      simp only [armConsistentB, Bool.and_eq_true, decide_eq_true_eq] at h
      obtain ⟨h1, h2⟩ := h
      subst h1; subst h2; exact .leaf lo
    | .internal i =>
      simp only [armConsistentB, Bool.and_eq_true, decide_eq_true_eq] at h
      obtain ⟨⟨⟨h1, h2⟩, h3⟩, h4⟩ := h
      exact .internal i lo hi h1 h2 (ih _ _ _ h3) (ih _ _ _ h4)

theorem armConsistentB_of_covers {a : Arena} {r : NodeRef} {lo hi : Nat}
    (h : Covers a r lo hi) :
    ∀ fuel, hi - lo < fuel → armConsistentB a fuel r lo hi = true := by
  induction h with
  | leaf s =>
    intro fuel hf
    cases fuel with
    | zero => omega
    | succ n => simp [armConsistentB]
  | internal i lo hi h1 h2 _ _ ihl ihr =>
    intro fuel hf
    cases fuel with
    | zero => omega
    | succ n =>
      simp only [armConsistentB, Bool.and_eq_true, decide_eq_true_eq]
      exact ⟨⟨⟨h1, h2⟩, ihl n (by omega)⟩, ihr n (by omega)⟩

/-- The Boolean structural consistency check of `splay.rs` agrees with the
inductive invariant. -/
theorem isConsistentB_iff_covers (max : Nat) (a : Arena) :
    a.isConsistentB max = true ↔ Covers a (.internal a.root) 0 max := by
  constructor
  · exact covers_of_armConsistentB _ _ _ _
  · intro h
    exact armConsistentB_of_covers h (max + 1) (by omega)

/-! ## Consistency of the canonical uniform arena -/

theorem trailingOnesAux_char :
    ∀ fuel n, n ≤ fuel →
      n % 2 ^ (trailingOnesAux fuel n + 1) = 2 ^ trailingOnesAux fuel n - 1 := by
  intro fuel
  induction fuel with
  | zero =>
    intro n hn
    have : n = 0 := by omega
    subst this
    simp [trailingOnesAux]
  | succ f ih =>
    intro n hn
    by_cases hodd : n % 2 = 1
    · rw [show trailingOnesAux (f + 1) n =
        if n % 2 = 1 then trailingOnesAux f (n / 2) + 1 else 0 from rfl, if_pos hodd]
      have ihh := ih (n / 2) (by omega)
      set t := trailingOnesAux f (n / 2) with ht
      have hn2 : n = 2 * (n / 2) + 1 := by omega
      have hpow : (2:Nat) ^ (t + 1 + 1) = 2 * 2 ^ (t + 1) := by ring
      have hmulmod : 2 * (n / 2) % (2 * 2 ^ (t + 1)) = 2 * (n / 2 % 2 ^ (t + 1)) :=
        Nat.mul_mod_mul_left 2 _ _
      have hmlt : n / 2 % 2 ^ (t + 1) < 2 ^ (t + 1) :=
        Nat.mod_lt _ (pow_pos (by norm_num) _)
      have hlt : 2 * (n / 2 % 2 ^ (t + 1)) + 1 < 2 * 2 ^ (t + 1) := by omega
      have key : n % (2 * 2 ^ (t + 1)) = 2 * (n / 2 % 2 ^ (t + 1)) + 1 := by
        conv_lhs => rw [hn2]
        rw [Nat.add_mod, hmulmod]
        have h1 : (1:Nat) % (2 * 2 ^ (t + 1)) = 1 :=
          Nat.mod_eq_of_lt
            (by have := pow_pos (show (0:Nat) < 2 by norm_num) (t + 1); omega)
        rw [h1, Nat.mod_eq_of_lt hlt]
      rw [hpow, key, ihh]
      have := pow_pos (show (0:Nat) < 2 by norm_num) t
      have hp : (2:Nat) ^ (t + 1) = 2 * 2 ^ t := by ring
      omega
    · rw [show trailingOnesAux (f + 1) n =
        if n % 2 = 1 then trailingOnesAux f (n / 2) + 1 else 0 from rfl, if_neg hodd]
      norm_num
      omega

theorem trailingOnes_char (n : Nat) :
    n % 2 ^ (trailingOnes n + 1) = 2 ^ trailingOnes n - 1 :=
  trailingOnesAux_char n n le_rfl

/-- `(2^m - 1) % 2^(k+1) = 2^(k+1) - 1` whenever `k + 1 ≤ m`. -/
theorem pow_sub_one_mod {m k : Nat} (h : k + 1 ≤ m) :
    ((2:Nat) ^ m - 1) % 2 ^ (k + 1) = 2 ^ (k + 1) - 1 := by
  have hsplit : (2:Nat) ^ m = 2 ^ (m - (k + 1)) * 2 ^ (k + 1) := by
    rw [← pow_add]; congr 1; omega
  have hx := pow_pos (show (0:Nat) < 2 by norm_num) (m - (k + 1))
  have hk := pow_pos (show (0:Nat) < 2 by norm_num) (k + 1)
  have hexp : (2:Nat) ^ m - 1 =
      2 ^ (k + 1) - 1 + 2 ^ (k + 1) * (2 ^ (m - (k + 1)) - 1) := by
    have hmul : (2:Nat) ^ (k + 1) * (2 ^ (m - (k + 1)) - 1) + 2 ^ (k + 1) =
        2 ^ (m - (k + 1)) * 2 ^ (k + 1) := by
      rw [← Nat.mul_succ]
      rw [Nat.mul_comm]
      congr 1
      omega
    omega
  rw [hexp, Nat.add_mul_mod_self_left, Nat.mod_eq_of_lt (by omega)]

theorem trailingOnes_unique {n t : Nat} (h : n % 2 ^ (t + 1) = 2 ^ t - 1) :
    trailingOnes n = t := by
  by_contra hne
  set u := trailingOnes n with hu
  have hc := trailingOnes_char n
  rw [← hu] at hc
  rcases Nat.lt_or_ge u t with hlt | hge
  · have hdvd : (2:Nat) ^ (u + 1) ∣ 2 ^ (t + 1) := pow_dvd_pow 2 (by omega)
    have hmm := Nat.mod_mod_of_dvd n hdvd
    rw [h] at hmm
    have hps : ((2:Nat) ^ t - 1) % 2 ^ (u + 1) = 2 ^ (u + 1) - 1 :=
      pow_sub_one_mod (by omega)
    rw [hps] at hmm
    have h1 := pow_pos (show (0:Nat) < 2 by norm_num) u
    have h2 : (2:Nat) ^ (u + 1) = 2 * 2 ^ u := by ring
    omega
  · have hlt2 : t < u := by omega
    have hdvd : (2:Nat) ^ (t + 1) ∣ 2 ^ (u + 1) := pow_dvd_pow 2 (by omega)
    have hmm := Nat.mod_mod_of_dvd n hdvd
    rw [hc] at hmm
    have hps : ((2:Nat) ^ u - 1) % 2 ^ (t + 1) = 2 ^ (t + 1) - 1 :=
      pow_sub_one_mod (by omega)
    rw [hps, h] at hmm
    have h1 := pow_pos (show (0:Nat) < 2 by norm_num) t
    have h2 : (2:Nat) ^ (t + 1) = 2 * 2 ^ t := by ring
    omega

/-- Bits of `2^(k+1) * a + c` for `c < 2^(k+1)`: positions up to `k` read
`c`, higher positions read `a`. -/
theorem testBit_decomp (a c k n : Nat) (hc : c < 2 ^ (k + 1)) :
    (2 ^ (k + 1) * a + c).testBit n =
      if n ≤ k then c.testBit n else a.testBit (n - k - 1) := by
  rcases Nat.lt_or_ge k n with hnk | hnk
  · rw [if_neg (by omega)]
    have h2 : (2:Nat) ^ n = 2 ^ (k + 1) * 2 ^ (n - k - 1) := by
      rw [← pow_add]; congr 1; omega
    have hkey : (2 ^ (k + 1) * a + c) / 2 ^ n = a / 2 ^ (n - k - 1) := by
      rw [h2, ← Nat.div_div_eq_div_mul]
      congr 1
      rw [Nat.add_comm, Nat.mul_comm,
        Nat.add_mul_div_right _ _ (pow_pos (by norm_num) (k + 1))]
      rw [Nat.div_eq_of_lt hc, Nat.zero_add]
    simp [Nat.testBit_to_div_mod, hkey]
  · rw [if_pos hnk]
    have hkey : (2 ^ (k + 1) * a + c) / 2 ^ n % 2 = c / 2 ^ n % 2 := by
      have h2 : (2:Nat) ^ (k + 1) = 2 ^ n * 2 ^ (k + 1 - n) := by
        rw [← pow_add]; congr 1; omega
      rw [h2, Nat.mul_assoc, Nat.add_comm, Nat.mul_comm,
        Nat.add_mul_div_right _ _ (pow_pos (by norm_num) n)]
      have hsplit : (2:Nat) ^ (k + 1 - n) * a = 2 * (2 ^ (k - n) * a) := by
        have : (2:Nat) ^ (k + 1 - n) = 2 * 2 ^ (k - n) := by
          rw [← pow_succ']; congr 1; omega
        rw [this]; ring
      rw [hsplit, Nat.add_mul_mod_self_left]
    simp [Nat.testBit_to_div_mod, hkey]

/-- Bits of the mask `2^w - 1 - 2^k` (all ones below `w` except bit `k`). -/
theorem testBit_mask (w k n : Nat) (hk : k < w) :
    ((2:Nat) ^ w - 1 - 2 ^ k).testBit n = (decide (n < w) && !decide (n = k)) := by
  have hx := pow_pos (show (0:Nat) < 2 by norm_num) (w - k - 1)
  have hk1 := pow_pos (show (0:Nat) < 2 by norm_num) k
  have hk2 : (2:Nat) ^ (k + 1) = 2 * 2 ^ k := by ring
  have hw2 : (2:Nat) ^ w = 2 ^ (k + 1) * 2 ^ (w - k - 1) := by
    rw [← pow_add]; congr 1; omega
  have hM : (2:Nat) ^ w - 1 - 2 ^ k =
      2 ^ (k + 1) * (2 ^ (w - k - 1) - 1) + (2 ^ k - 1) := by
    have hmul : (2:Nat) ^ (k + 1) * (2 ^ (w - k - 1) - 1) + 2 ^ (k + 1) =
        2 ^ (k + 1) * 2 ^ (w - k - 1) := by
      rw [← Nat.mul_succ]
      congr 1
      omega
    omega
  rw [hM, testBit_decomp _ _ _ _ (by omega)]
  rcases Nat.lt_or_ge k n with hnk | hnk
  · rw [if_neg (by omega), Nat.testBit_two_pow_sub_one]
    have heq : (decide (n - k - 1 < w - k - 1)) = (decide (n < w)) :=
      decide_eq_decide.mpr (by omega)
    rw [heq]
    have : (!decide (n = k)) = true := by
      simp only [Bool.not_eq_eq_eq_not, Bool.not_true, decide_eq_false_iff_not]
      omega
    rw [this, Bool.and_true]
  · rw [if_pos hnk, Nat.testBit_two_pow_sub_one]
    rcases Nat.lt_or_ge n k with h1 | h1
    · have e1 : decide (n < k) = true := by simp [h1]
      have e2 : decide (n < w) = true := by simp; omega
      have e3 : (!decide (n = k)) = true := by
        simp only [Bool.not_eq_eq_eq_not, Bool.not_true, decide_eq_false_iff_not]
        omega
      rw [e1, e2, e3]
      simp
    · have hnk2 : n = k := by omega
      subst hnk2
      simp
/-- Clearing a set bit `k` of `i < 2^w` with the `u8`/`u16` complement mask
is subtraction of `2^k`. -/
theorem land_mask (w k i : Nat) (hk : k < w) (hi : i < 2 ^ w)
    (hbit : 2 ^ k ≤ i % 2 ^ (k + 1)) :
    Nat.land i (2 ^ w - 1 - 2 ^ k) = i - 2 ^ k := by
  show i &&& (2 ^ w - 1 - 2 ^ k) = i - 2 ^ k
  apply Nat.eq_of_testBit_eq
  intro n
  rw [Nat.testBit_land, testBit_mask _ _ _ hk]
  have hk1 := pow_pos (show (0:Nat) < 2 by norm_num) k
  have hk2 : (2:Nat) ^ (k + 1) = 2 * 2 ^ k := by ring
  have hdecomp := (Nat.div_add_mod i (2 ^ (k + 1))).symm
  set q := i / 2 ^ (k + 1) with hq
  set c := i % 2 ^ (k + 1) with hcdef
  have hc : c < 2 ^ (k + 1) := by
    rw [hcdef]
    exact Nat.mod_lt _ (pow_pos (by norm_num) _)
  have hck : 2 ^ k ≤ c := hbit
  have hTi : i.testBit n = if n ≤ k then c.testBit n else q.testBit (n - k - 1) := by
    conv_lhs => rw [hdecomp]
    exact testBit_decomp q c k n hc
  have hsub : i - 2 ^ k = 2 ^ (k + 1) * q + (c - 2 ^ k) := by omega
  rw [hsub, testBit_decomp _ _ _ _ (by omega), hTi]
  rcases Nat.lt_or_ge k n with hnk | hnk
  · rw [if_neg (by omega), if_neg (by omega)]
    rcases Nat.lt_or_ge n w with h1 | h1
    · have e2 : decide (n < w) = true := by simp [h1]
      have e3 : (!decide (n = k)) = true := by
        simp only [Bool.not_eq_eq_eq_not, Bool.not_true, decide_eq_false_iff_not]
        omega
      rw [e2, e3]
      simp
    · have hqlt : q < 2 ^ (w - k - 1) := by
        rw [hq]
        rw [Nat.div_lt_iff_lt_mul (pow_pos (by norm_num) _)]
        calc i < 2 ^ w := hi
          _ = 2 ^ (w - k - 1) * 2 ^ (k + 1) := by rw [← pow_add]; congr 1; omega
      have hqbit : q.testBit (n - k - 1) = false :=
        Nat.testBit_lt_two_pow
          (lt_of_lt_of_le hqlt (Nat.pow_le_pow_right (by norm_num) (by omega)))
      have e2 : decide (n < w) = false := by simp; omega
      rw [hqbit, e2]
      simp
  · rw [if_pos hnk, if_pos hnk]
    rcases Nat.lt_or_ge n k with h1 | h1
    · have hck2 : c - 2 ^ k < 2 ^ k := by omega
      have hkk : 1 ≤ k := by omega
      have hkpow : (2:Nat) ^ (k - 1 + 1) = 2 ^ k := by congr 1; omega
      have hcc : c = 2 ^ (k - 1 + 1) * 1 + (c - 2 ^ k) := by
        rw [hkpow]; omega
      have hbits : c.testBit n = (c - 2 ^ k).testBit n := by
        conv_lhs => rw [hcc]
        rw [testBit_decomp _ _ _ _ (by rw [hkpow]; omega)]
        rw [if_pos (by omega)]
      rw [hbits]
      have e2 : decide (n < w) = true := by simp; omega
      have e3 : (!decide (n = k)) = true := by
        simp only [Bool.not_eq_eq_eq_not, Bool.not_true, decide_eq_false_iff_not]
        omega
      rw [e2, e3]
      rw [Bool.and_true, Bool.and_true]
    · have hnk2 : n = k := by omega
      subst hnk2
      have hbf : (c - 2 ^ n).testBit n = false :=
        Nat.testBit_lt_two_pow (by omega)
      rw [hbf]
      simp

/-- Setting a clear bit `t` is addition of `2^t`. -/
theorem lor_bit (m t : Nat) (hbit : m % 2 ^ (t + 1) < 2 ^ t) :
    Nat.lor m (2 ^ t) = m + 2 ^ t := by
  show m ||| 2 ^ t = m + 2 ^ t
  apply Nat.eq_of_testBit_eq
  intro n
  rw [Nat.testBit_lor]
  have ht1 := pow_pos (show (0:Nat) < 2 by norm_num) t
  have ht2 : (2:Nat) ^ (t + 1) = 2 * 2 ^ t := by ring
  have hdecomp := (Nat.div_add_mod m (2 ^ (t + 1))).symm
  set q := m / 2 ^ (t + 1) with hq
  set c := m % 2 ^ (t + 1) with hcdef
  have hc : c < 2 ^ (t + 1) := by
    rw [hcdef]
    exact Nat.mod_lt _ (pow_pos (by norm_num) _)
  have hclt : c < 2 ^ t := hbit
  have hTm : m.testBit n = if n ≤ t then c.testBit n else q.testBit (n - t - 1) := by
    conv_lhs => rw [hdecomp]
    exact testBit_decomp q c t n hc
  have hadd : m + 2 ^ t = 2 ^ (t + 1) * q + (c + 2 ^ t) := by omega
  rw [hadd, testBit_decomp _ _ _ _ (by omega), hTm, Nat.testBit_two_pow]
  rcases Nat.lt_or_ge t n with hnt | hnt
  · rw [if_neg (by omega), if_neg (by omega)]
    have : decide (t = n) = false := by simp; omega
    rw [this, Bool.or_false]
  · rw [if_pos hnt, if_pos hnt]
    rcases Nat.lt_or_ge n t with h1 | h1
    · have hbits : (c + 2 ^ t).testBit n = c.testBit n := by
        simp only [Nat.testBit_to_div_mod]
        have hsplit : (2:Nat) ^ t = 2 ^ n * 2 ^ (t - n) := by
          rw [← pow_add]; congr 1; omega
        have hkey : (c + 2 ^ t) / 2 ^ n % 2 = c / 2 ^ n % 2 := by
          rw [hsplit, Nat.mul_comm,
            Nat.add_mul_div_right _ _ (pow_pos (by norm_num) n)]
          have heven : (2:Nat) ^ (t - n) = 2 * 2 ^ (t - n - 1) := by
            rw [← pow_succ']; congr 1; omega
          rw [heven, Nat.add_mul_mod_self_left]
        rw [hkey]
      rw [hbits]
      have : decide (t = n) = false := by simp; omega
      rw [this, Bool.or_false]
    · have hnt2 : n = t := by omega
      subst hnt2
      have hbits : (c + 2 ^ n).testBit n = true := by
        simp only [Nat.testBit_to_div_mod]
        have hdiv : (c + 2 ^ n) / 2 ^ n = 1 := by
          rw [Nat.add_div_right _ (pow_pos (by norm_num) n),
            Nat.div_eq_of_lt hclt]
        simp [hdiv]
      rw [hbits]
      simp

/-- Every index of the uniform arena (on alphabets of size `2^w`) roots a
consistent subtree covering `[i + 1 - 2^L, i + 2^L]`, `L` its count of
trailing ones. -/
theorem uniform_covers_node (w : Nat) :
    ∀ t i, trailingOnes i = t → i + 2 ^ t ≤ 2 ^ w - 1 →
      Covers (mkUniform (2 ^ w - 1)) (.internal i) (i + 1 - 2 ^ t) (i + 2 ^ t) := by
  intro t
  induction t with
  | zero =>
    intro i hto _
    have hnode : (mkUniform (2 ^ w - 1)).nodes i =
        { left := NodeRef.leaf i, right := NodeRef.leaf (i + 1) } := by
      show uniformNode (2 ^ w - 1) i = _
      rw [uniformNode]
      simp [hto]
    refine Covers.internal i i (i + 1) (by omega) (by omega) ?_ ?_
    · rw [hnode]
      exact Covers.leaf i
    · rw [hnode]
      exact Covers.leaf (i + 1)
  | succ u ih =>
    intro i hto hbound
    have hchar := trailingOnes_char i
    rw [hto] at hchar
    rw [show u + 1 + 1 = u + 2 from rfl] at hchar
    have hu1 := pow_pos (show (0:Nat) < 2 by norm_num) u
    have hu2 : (2:Nat) ^ (u + 1) = 2 * 2 ^ u := by ring
    have hu3 : (2:Nat) ^ (u + 2) = 4 * 2 ^ u := by ring
    have hilow : 2 ^ (u + 1) - 1 ≤ i := by
      have := Nat.mod_le i (2 ^ (u + 2))
      omega
    have hw2 : 2 ^ (u + 2) ≤ 2 ^ w := by
      have h2 := pow_pos (show (0:Nat) < 2 by norm_num) w
      omega
    have huw : u + 2 ≤ w := (Nat.pow_le_pow_iff_right (by norm_num)).mp hw2
    have hwu : (2:Nat) ^ w = 2 ^ (u + 2) * 2 ^ (w - u - 2) := by
      rw [← pow_add]; congr 1; omega
    have hxw := pow_pos (show (0:Nat) < 2 by norm_num) (w - u - 2)
    have hmod1 : i % 2 ^ (u + 1) = 2 ^ (u + 1) - 1 := by
      have hdvd : (2:Nat) ^ (u + 1) ∣ 2 ^ (u + 2) := pow_dvd_pow 2 (by omega)
      have hmm := Nat.mod_mod_of_dvd i hdvd
      rw [hchar] at hmm
      rw [← hmm, Nat.mod_eq_of_lt (by omega)]
    have hmask : Nat.land i (2 ^ w - 1 - 2 ^ u) = i - 2 ^ u := by
      apply land_mask w u i (by omega) (by omega)
      omega
    set m := i - 2 ^ u with hmdef
    have hqe := (Nat.div_add_mod i (2 ^ (u + 2))).symm
    set q := i / 2 ^ (u + 2) with hqdef
    have hprod : (2:Nat) ^ (u + 2) * q = 4 * (2 ^ u * q) := by
      rw [hu3]; ring
    have hmval : m = (2 ^ u - 1) + 2 ^ (u + 1) * (2 * q) := by
      have hprod2 : (2:Nat) ^ (u + 1) * (2 * q) = 4 * (2 ^ u * q) := by
        rw [hu2]; ring
      omega
    have hm2 : m % 2 ^ (u + 1) = 2 ^ u - 1 := by
      rw [hmval, Nat.add_mul_mod_self_left, Nat.mod_eq_of_lt (by omega)]
    have htm : trailingOnes m = u := trailingOnes_unique hm2
    have hm3 : m % 2 ^ (u + 2) = 2 ^ u - 1 := by
      have hmval2 : m = (2 ^ u - 1) + 2 ^ (u + 2) * q := by omega
      rw [hmval2, Nat.add_mul_mod_self_left, Nat.mod_eq_of_lt (by omega)]
    have hlor : Nat.lor m (2 ^ (u + 1)) = m + 2 ^ (u + 1) := by
      apply lor_bit
      rw [show u + 1 + 1 = u + 2 from rfl, hm3]
      omega
    set r := m + 2 ^ (u + 1) with hrdef
    have hr2 : r % 2 ^ (u + 1) = 2 ^ u - 1 := by
      rw [hrdef, Nat.add_mod_right, hm2]
    have htr : trailingOnes r = u := trailingOnes_unique hr2
    have hnode : (mkUniform (2 ^ w - 1)).nodes i =
        { left := NodeRef.internal m, right := NodeRef.internal r } := by
      show uniformNode (2 ^ w - 1) i = _
      rw [uniformNode]
      simp only [hto]
      rw [if_neg (by omega)]
      rw [show u + 1 - 1 = u from rfl]
      rw [hmask, hlor]
    have ihm := ih m htm (by omega)
    have ihr := ih r htr (by omega)
    have hEm1 : m + 1 - 2 ^ u = i + 1 - 2 ^ (u + 1) := by omega
    have hEm2 : m + 2 ^ u = i := by omega
    have hEr1 : r + 1 - 2 ^ u = i + 1 := by omega
    have hEr2 : r + 2 ^ u = i + 2 ^ (u + 1) := by omega
    rw [hEm1, hEm2] at ihm
    rw [hEr1, hEr2] at ihr
    refine Covers.internal i (i + 1 - 2 ^ (u + 1)) (i + 2 ^ (u + 1))
      (by omega) (by omega) ?_ ?_
    · rw [hnode]
      exact ihm
    · rw [hnode]
      exact ihr

/-- The canonical uniform arena is consistent, for any power-of-two alphabet. -/
theorem uniform_covers (w : Nat) (hw : 1 ≤ w) :
    Covers (mkUniform (2 ^ w - 1)) (.internal (mkUniform (2 ^ w - 1)).root)
      0 (2 ^ w - 1) := by
  have h2 : (2:Nat) ^ w = 2 * 2 ^ (w - 1) := by
    rw [← pow_succ']; congr 1; omega
  have hp := pow_pos (show (0:Nat) < 2 by norm_num) (w - 1)
  have hroot : (mkUniform (2 ^ w - 1)).root = 2 ^ (w - 1) - 1 := by
    show (2 ^ w - 1) / 2 = 2 ^ (w - 1) - 1
    omega
  have hto : trailingOnes (2 ^ (w - 1) - 1) = w - 1 := by
    apply trailingOnes_unique
    apply Nat.mod_eq_of_lt
    have h3 : (2:Nat) ^ (w - 1 + 1) = 2 * 2 ^ (w - 1) := by ring
    omega
  have hmain := uniform_covers_node w (w - 1) (2 ^ (w - 1) - 1) hto (by omega)
  rw [hroot]
  have hE1 : 2 ^ (w - 1) - 1 + 1 - 2 ^ (w - 1) = 0 := by omega
  have hE2 : 2 ^ (w - 1) - 1 + 2 ^ (w - 1) = 2 ^ w - 1 := by omega
  rw [hE1, hE2] at hmain
  exact hmain

theorem uniform8_covers :
    Covers Arena8.newUniform (.internal Arena8.newUniform.root) 0 255 := by
  have h := uniform_covers 8 (by norm_num)
  norm_num at h
  exact h

/-- Consistency of the fresh 16-bit arena. -/
theorem uniform16_covers :
    Covers Arena16.newUniform (.internal Arena16.newUniform.root) 0 65535 := by
  have h := uniform_covers 16 (by norm_num)
  norm_num at h
  exact h


/-! ## The splay restructuring preserves consistency -/

theorem Arena.updArm_nodes_ne (a : Arena) (i : Nat) (d : Direction) (r : NodeRef)
    (j : Nat) (h : j ≠ i) : (a.updArm i d r).nodes j = a.nodes j := by
  simp [Arena.updArm, h]

theorem Arena.updArm_nodes_eq (a : Arena) (i : Nat) (d : Direction) (r : NodeRef) :
    (a.updArm i d r).nodes i = (a.nodes i).armSet d r := by
  simp [Arena.updArm]

theorem ChainUp.head_arm {a : Arena} {max : Nat} {r : NodeRef} {lo hi q : Nat}
    {d : Direction} {rest : List Frame}
    (h : ChainUp a max r lo hi ((q, d) :: rest)) : (a.nodes q).arm d = r := by
  cases d with
  | left => exact h.1
  | right => exact h.1

/-- Rebuild a walker context after the splay step redirected the arm above
the hole to a new subtree root and mutated nodes strictly inside the hole. -/
theorem ChainUp.retarget {a a' : Arena} {max : Nat} {rOld rNew : NodeRef}
    {lo hi q : Nat} {d : Direction} {rest : List Frame}
    (h : ChainUp a max rOld lo hi ((q, d) :: rest))
    (hlh : lo ≤ hi)
    (harm : (a'.nodes q).arm d = rNew)
    (hopp : (a'.nodes q).arm d.opposite = (a.nodes q).arm d.opposite)
    (hag : ∀ j, j < lo ∨ hi ≤ j → j ≠ q → a'.nodes j = a.nodes j)
    (hroot : a'.root = a.root) :
    ChainUp a' max rNew lo hi ((q, d) :: rest) := by
  cases d with
  | left =>
    obtain ⟨_, hhi, qhi, hq, hcovR, hchain⟩ := h
    refine ⟨harm, hhi, qhi, hq, ?_, ?_⟩
    · have hr : (a'.nodes q).right = (a.nodes q).right := hopp
      rw [hr]
      exact hcovR.congr_arena fun j hj1 hj2 => hag j (Or.inr (by omega)) (by omega)
    · exact hchain.congr_outside hroot fun j hj => by
        rcases hj with hj | hj
        · exact hag j (Or.inl hj) (by omega)
        · exact hag j (Or.inr (by omega)) (by omega)
  | right =>
    obtain ⟨_, hlo, qlo, hq, hcovL, hchain⟩ := h
    refine ⟨harm, hlo, qlo, hq, ?_, ?_⟩
    · have hl : (a'.nodes q).left = (a.nodes q).left := hopp
      rw [hl]
      exact hcovL.congr_arena fun j hj1 hj2 => hag j (Or.inl (by omega)) (by omega)
    · exact hchain.congr_outside hroot fun j hj => by
        rcases hj with hj | hj
        · exact hag j (Or.inl (by omega)) (by omega)
        · exact hag j (Or.inr (by omega)) (by omega)

/-- Zig-zig rotation, both frames `Left`: the rewired subtree rooted at `n`
covers the grandparent's old interval, and nothing outside `{n, p, g}`
moves. -/
theorem rotateOnce_LL {b : Arena} {n p g lo ghi : Nat}
    (hnb : Covers b (NodeRef.internal n) lo p)
    (hpR : Covers b (b.nodes p).right (p + 1) g)
    (hgR : Covers b (b.nodes g).right (g + 1) ghi)
    (hpg : p < g) (hghi : g < ghi) :
    Covers (rotateOnce b n p g .left .left) (NodeRef.internal n) lo ghi ∧
    (∀ j, j ≠ n → j ≠ p → j ≠ g →
      (rotateOnce b n p g .left .left).nodes j = b.nodes j) ∧
    (rotateOnce b n p g .left .left).root = b.root := by
  obtain ⟨hlon, hnp⟩ := hnb.internal_bounds
  have hA1 : rotateOnce b n p g .left .left =
      (((b.updArm p .right (NodeRef.internal g)).updArm g .left
        ((b.nodes p).arm .right)).updArm n .right (NodeRef.internal p)).updArm
        p .left ((b.nodes n).arm .right) := rfl
  have hAn : (rotateOnce b n p g .left .left).nodes n =
      (b.nodes n).armSet .right (NodeRef.internal p) := by
    rw [hA1, Arena.updArm_nodes_ne _ _ _ _ _ (show n ≠ p by omega),
      Arena.updArm_nodes_eq, Arena.updArm_nodes_ne _ _ _ _ _ (show n ≠ g by omega),
      Arena.updArm_nodes_ne _ _ _ _ _ (show n ≠ p by omega)]
  have hAp : (rotateOnce b n p g .left .left).nodes p =
      ((b.nodes p).armSet .right (NodeRef.internal g)).armSet .left
        ((b.nodes n).arm .right) := by
    rw [hA1, Arena.updArm_nodes_eq, Arena.updArm_nodes_ne _ _ _ _ _ (show p ≠ n by omega),
      Arena.updArm_nodes_ne _ _ _ _ _ (show p ≠ g by omega), Arena.updArm_nodes_eq]
  have hAg : (rotateOnce b n p g .left .left).nodes g =
      (b.nodes g).armSet .left ((b.nodes p).arm .right) := by
    rw [hA1, Arena.updArm_nodes_ne _ _ _ _ _ (show g ≠ p by omega),
      Arena.updArm_nodes_ne _ _ _ _ _ (show g ≠ n by omega), Arena.updArm_nodes_eq,
      Arena.updArm_nodes_ne _ _ _ _ _ (show g ≠ p by omega)]
  have hAother : ∀ j, j ≠ n → j ≠ p → j ≠ g →
      (rotateOnce b n p g .left .left).nodes j = b.nodes j := by
    intro j hjn hjp hjg
    rw [hA1, Arena.updArm_nodes_ne _ _ _ _ _ hjp, Arena.updArm_nodes_ne _ _ _ _ _ hjn,
      Arena.updArm_nodes_ne _ _ _ _ _ hjg, Arena.updArm_nodes_ne _ _ _ _ _ hjp]
  refine ⟨Covers.internal n lo ghi (by omega) (by omega) ?_ ?_, hAother, by rw [hA1]; rfl⟩
  · rw [hAn]
    simp only [Node.armSet]
    exact hnb.internal_left.congr_arena fun j h1 h2 =>
      hAother j (by omega) (by omega) (by omega)
  · rw [hAn]
    simp only [Node.armSet]
    refine Covers.internal p (n + 1) ghi (by omega) (by omega) ?_ ?_
    · rw [hAp]
      simp only [Node.armSet, Node.arm]
      exact hnb.internal_right.congr_arena fun j h1 h2 =>
        hAother j (by omega) (by omega) (by omega)
    · rw [hAp]
      simp only [Node.armSet]
      refine Covers.internal g (p + 1) ghi (by omega) (by omega) ?_ ?_
      · rw [hAg]
        simp only [Node.armSet, Node.arm]
        exact hpR.congr_arena fun j h1 h2 => hAother j (by omega) (by omega) (by omega)
      · rw [hAg]
        simp only [Node.armSet]
        exact hgR.congr_arena fun j h1 h2 => hAother j (by omega) (by omega) (by omega)

/-- Zig-zig rotation, both frames `Right`. -/
theorem rotateOnce_RR {b : Arena} {n p g glo hi : Nat}
    (hnb : Covers b (NodeRef.internal n) (p + 1) hi)
    (hpL : Covers b (b.nodes p).left (g + 1) p)
    (hgL : Covers b (b.nodes g).left glo g)
    (hgp : g < p) (hglo : glo ≤ g) :
    Covers (rotateOnce b n p g .right .right) (NodeRef.internal n) glo hi ∧
    (∀ j, j ≠ n → j ≠ p → j ≠ g →
      (rotateOnce b n p g .right .right).nodes j = b.nodes j) ∧
    (rotateOnce b n p g .right .right).root = b.root := by
  obtain ⟨hpn, hnhi⟩ := hnb.internal_bounds
  have hA1 : rotateOnce b n p g .right .right =
      (((b.updArm p .left (NodeRef.internal g)).updArm g .right
        ((b.nodes p).arm .left)).updArm n .left (NodeRef.internal p)).updArm
        p .right ((b.nodes n).arm .left) := rfl
  have hAn : (rotateOnce b n p g .right .right).nodes n =
      (b.nodes n).armSet .left (NodeRef.internal p) := by
    rw [hA1, Arena.updArm_nodes_ne _ _ _ _ _ (show n ≠ p by omega),
      Arena.updArm_nodes_eq, Arena.updArm_nodes_ne _ _ _ _ _ (show n ≠ g by omega),
      Arena.updArm_nodes_ne _ _ _ _ _ (show n ≠ p by omega)]
  have hAp : (rotateOnce b n p g .right .right).nodes p =
      ((b.nodes p).armSet .left (NodeRef.internal g)).armSet .right
        ((b.nodes n).arm .left) := by
    rw [hA1, Arena.updArm_nodes_eq, Arena.updArm_nodes_ne _ _ _ _ _ (show p ≠ n by omega),
      Arena.updArm_nodes_ne _ _ _ _ _ (show p ≠ g by omega), Arena.updArm_nodes_eq]
  have hAg : (rotateOnce b n p g .right .right).nodes g =
      (b.nodes g).armSet .right ((b.nodes p).arm .left) := by
    rw [hA1, Arena.updArm_nodes_ne _ _ _ _ _ (show g ≠ p by omega),
      Arena.updArm_nodes_ne _ _ _ _ _ (show g ≠ n by omega), Arena.updArm_nodes_eq,
      Arena.updArm_nodes_ne _ _ _ _ _ (show g ≠ p by omega)]
  have hAother : ∀ j, j ≠ n → j ≠ p → j ≠ g →
      (rotateOnce b n p g .right .right).nodes j = b.nodes j := by
    intro j hjn hjp hjg
    rw [hA1, Arena.updArm_nodes_ne _ _ _ _ _ hjp, Arena.updArm_nodes_ne _ _ _ _ _ hjn,
      Arena.updArm_nodes_ne _ _ _ _ _ hjg, Arena.updArm_nodes_ne _ _ _ _ _ hjp]
  refine ⟨Covers.internal n glo hi (by omega) (by omega) ?_ ?_, hAother, by rw [hA1]; rfl⟩
  · rw [hAn]
    simp only [Node.armSet]
    refine Covers.internal p glo n (by omega) (by omega) ?_ ?_
    · rw [hAp]
      simp only [Node.armSet]
      refine Covers.internal g glo p (by omega) (by omega) ?_ ?_
      · rw [hAg]
        simp only [Node.armSet]
        exact hgL.congr_arena fun j h1 h2 => hAother j (by omega) (by omega) (by omega)
      · rw [hAg]
        simp only [Node.armSet, Node.arm]
        exact hpL.congr_arena fun j h1 h2 => hAother j (by omega) (by omega) (by omega)
    · rw [hAp]
      simp only [Node.armSet, Node.arm]
      exact hnb.internal_left.congr_arena fun j h1 h2 =>
        hAother j (by omega) (by omega) (by omega)
  · rw [hAn]
    simp only [Node.armSet]
    exact hnb.internal_right.congr_arena fun j h1 h2 =>
      hAother j (by omega) (by omega) (by omega)

/-- Zig-zag rotation, parent frame `Right` below a grandparent frame
`Left`. -/
theorem rotateOnce_RL {b : Arena} {n p g plo ghi : Nat}
    (hnb : Covers b (NodeRef.internal n) (p + 1) g)
    (hpL : Covers b (b.nodes p).left plo p)
    (hgR : Covers b (b.nodes g).right (g + 1) ghi)
    (hplo : plo ≤ p) (hghi : g < ghi) :
    Covers (rotateOnce b n p g .right .left) (NodeRef.internal n) plo ghi ∧
    (∀ j, j ≠ n → j ≠ p → j ≠ g →
      (rotateOnce b n p g .right .left).nodes j = b.nodes j) ∧
    (rotateOnce b n p g .right .left).root = b.root := by
  obtain ⟨hpn, hng⟩ := hnb.internal_bounds
  have hA1 : rotateOnce b n p g .right .left =
      (((b.updArm n .right (NodeRef.internal g)).updArm g .left
        ((b.nodes n).arm .right)).updArm n .left (NodeRef.internal p)).updArm
        p .right ((b.nodes n).arm .left) := rfl
  have hAn : (rotateOnce b n p g .right .left).nodes n =
      ((b.nodes n).armSet .right (NodeRef.internal g)).armSet .left
        (NodeRef.internal p) := by
    rw [hA1, Arena.updArm_nodes_ne _ _ _ _ _ (show n ≠ p by omega),
      Arena.updArm_nodes_eq, Arena.updArm_nodes_ne _ _ _ _ _ (show n ≠ g by omega),
      Arena.updArm_nodes_eq]
  have hAp : (rotateOnce b n p g .right .left).nodes p =
      (b.nodes p).armSet .right ((b.nodes n).arm .left) := by
    rw [hA1, Arena.updArm_nodes_eq, Arena.updArm_nodes_ne _ _ _ _ _ (show p ≠ n by omega),
      Arena.updArm_nodes_ne _ _ _ _ _ (show p ≠ g by omega),
      Arena.updArm_nodes_ne _ _ _ _ _ (show p ≠ n by omega)]
  have hAg : (rotateOnce b n p g .right .left).nodes g =
      (b.nodes g).armSet .left ((b.nodes n).arm .right) := by
    rw [hA1, Arena.updArm_nodes_ne _ _ _ _ _ (show g ≠ p by omega),
      Arena.updArm_nodes_ne _ _ _ _ _ (show g ≠ n by omega), Arena.updArm_nodes_eq,
      Arena.updArm_nodes_ne _ _ _ _ _ (show g ≠ n by omega)]
  have hAother : ∀ j, j ≠ n → j ≠ p → j ≠ g →
      (rotateOnce b n p g .right .left).nodes j = b.nodes j := by
    intro j hjn hjp hjg
    rw [hA1, Arena.updArm_nodes_ne _ _ _ _ _ hjp, Arena.updArm_nodes_ne _ _ _ _ _ hjn,
      Arena.updArm_nodes_ne _ _ _ _ _ hjg, Arena.updArm_nodes_ne _ _ _ _ _ hjn]
  refine ⟨Covers.internal n plo ghi (by omega) (by omega) ?_ ?_, hAother, by rw [hA1]; rfl⟩
  · rw [hAn]
    simp only [Node.armSet]
    refine Covers.internal p plo n (by omega) (by omega) ?_ ?_
    · rw [hAp]
      simp only [Node.armSet]
      exact hpL.congr_arena fun j h1 h2 => hAother j (by omega) (by omega) (by omega)
    · rw [hAp]
      simp only [Node.armSet, Node.arm]
      exact hnb.internal_left.congr_arena fun j h1 h2 =>
        hAother j (by omega) (by omega) (by omega)
  · rw [hAn]
    simp only [Node.armSet]
    refine Covers.internal g (n + 1) ghi (by omega) (by omega) ?_ ?_
    · rw [hAg]
      simp only [Node.armSet, Node.arm]
      exact hnb.internal_right.congr_arena fun j h1 h2 =>
        hAother j (by omega) (by omega) (by omega)
    · rw [hAg]
      simp only [Node.armSet]
      exact hgR.congr_arena fun j h1 h2 => hAother j (by omega) (by omega) (by omega)

/-- Zig-zag rotation, parent frame `Left` below a grandparent frame
`Right`. -/
theorem rotateOnce_LR {b : Arena} {n p g glo phi : Nat}
    (hnb : Covers b (NodeRef.internal n) (g + 1) p)
    (hpR : Covers b (b.nodes p).right (p + 1) phi)
    (hgL : Covers b (b.nodes g).left glo g)
    (hglo : glo ≤ g) (hphi : p < phi) :
    Covers (rotateOnce b n p g .left .right) (NodeRef.internal n) glo phi ∧
    (∀ j, j ≠ n → j ≠ p → j ≠ g →
      (rotateOnce b n p g .left .right).nodes j = b.nodes j) ∧
    (rotateOnce b n p g .left .right).root = b.root := by
  obtain ⟨hgn, hnp⟩ := hnb.internal_bounds
  have hA1 : rotateOnce b n p g .left .right =
      (((b.updArm n .left (NodeRef.internal g)).updArm g .right
        ((b.nodes n).arm .left)).updArm n .right (NodeRef.internal p)).updArm
        p .left ((b.nodes n).arm .right) := rfl
  have hAn : (rotateOnce b n p g .left .right).nodes n =
      ((b.nodes n).armSet .left (NodeRef.internal g)).armSet .right
        (NodeRef.internal p) := by
    rw [hA1, Arena.updArm_nodes_ne _ _ _ _ _ (show n ≠ p by omega),
      Arena.updArm_nodes_eq, Arena.updArm_nodes_ne _ _ _ _ _ (show n ≠ g by omega),
      Arena.updArm_nodes_eq]
  have hAp : (rotateOnce b n p g .left .right).nodes p =
      (b.nodes p).armSet .left ((b.nodes n).arm .right) := by
    rw [hA1, Arena.updArm_nodes_eq, Arena.updArm_nodes_ne _ _ _ _ _ (show p ≠ n by omega),
      Arena.updArm_nodes_ne _ _ _ _ _ (show p ≠ g by omega),
      Arena.updArm_nodes_ne _ _ _ _ _ (show p ≠ n by omega)]
  have hAg : (rotateOnce b n p g .left .right).nodes g =
      (b.nodes g).armSet .right ((b.nodes n).arm .left) := by
    rw [hA1, Arena.updArm_nodes_ne _ _ _ _ _ (show g ≠ p by omega),
      Arena.updArm_nodes_ne _ _ _ _ _ (show g ≠ n by omega), Arena.updArm_nodes_eq,
      Arena.updArm_nodes_ne _ _ _ _ _ (show g ≠ n by omega)]
  have hAother : ∀ j, j ≠ n → j ≠ p → j ≠ g →
      (rotateOnce b n p g .left .right).nodes j = b.nodes j := by
    intro j hjn hjp hjg
    rw [hA1, Arena.updArm_nodes_ne _ _ _ _ _ hjp, Arena.updArm_nodes_ne _ _ _ _ _ hjn,
      Arena.updArm_nodes_ne _ _ _ _ _ hjg, Arena.updArm_nodes_ne _ _ _ _ _ hjn]
  refine ⟨Covers.internal n glo phi (by omega) (by omega) ?_ ?_, hAother, by rw [hA1]; rfl⟩
  · rw [hAn]
    simp only [Node.armSet]
    refine Covers.internal g glo n (by omega) (by omega) ?_ ?_
    · rw [hAg]
      simp only [Node.armSet]
      exact hgL.congr_arena fun j h1 h2 => hAother j (by omega) (by omega) (by omega)
    · rw [hAg]
      simp only [Node.armSet, Node.arm]
      exact hnb.internal_left.congr_arena fun j h1 h2 =>
        hAother j (by omega) (by omega) (by omega)
  · rw [hAn]
    simp only [Node.armSet]
    refine Covers.internal p (n + 1) phi (by omega) (by omega) ?_ ?_
    · rw [hAp]
      simp only [Node.armSet, Node.arm]
      exact hnb.internal_right.congr_arena fun j h1 h2 =>
        hAother j (by omega) (by omega) (by omega)
    · rw [hAp]
      simp only [Node.armSet]
      exact hpR.congr_arena fun j h1 h2 => hAother j (by omega) (by omega) (by omega)

/-- The final zig rotation below a `Left` frame at the root. -/
theorem zigOnce_L {b : Arena} {n p lo phi : Nat}
    (hnb : Covers b (NodeRef.internal n) lo p)
    (hpR : Covers b (b.nodes p).right (p + 1) phi)
    (hpphi : p < phi) :
    Covers (zigOnce b n p .left) (NodeRef.internal n) lo phi ∧
    (zigOnce b n p .left).root = b.root := by
  obtain ⟨hlon, hnp⟩ := hnb.internal_bounds
  have hA1 : zigOnce b n p .left =
      (b.updArm n .right (NodeRef.internal p)).updArm p .left
        ((b.nodes n).arm .right) := rfl
  have hAn : (zigOnce b n p .left).nodes n =
      (b.nodes n).armSet .right (NodeRef.internal p) := by
    rw [hA1, Arena.updArm_nodes_ne _ _ _ _ _ (show n ≠ p by omega),
      Arena.updArm_nodes_eq]
  have hAp : (zigOnce b n p .left).nodes p =
      (b.nodes p).armSet .left ((b.nodes n).arm .right) := by
    rw [hA1, Arena.updArm_nodes_eq, Arena.updArm_nodes_ne _ _ _ _ _ (show p ≠ n by omega)]
  have hAother : ∀ j, j ≠ n → j ≠ p → (zigOnce b n p .left).nodes j = b.nodes j := by
    intro j hjn hjp
    rw [hA1, Arena.updArm_nodes_ne _ _ _ _ _ hjp, Arena.updArm_nodes_ne _ _ _ _ _ hjn]
  refine ⟨Covers.internal n lo phi (by omega) (by omega) ?_ ?_, by rw [hA1]; rfl⟩
  · rw [hAn]
    simp only [Node.armSet]
    exact hnb.internal_left.congr_arena fun j h1 h2 => hAother j (by omega) (by omega)
  · rw [hAn]
    simp only [Node.armSet]
    refine Covers.internal p (n + 1) phi (by omega) (by omega) ?_ ?_
    · rw [hAp]
      simp only [Node.armSet, Node.arm]
      exact hnb.internal_right.congr_arena fun j h1 h2 => hAother j (by omega) (by omega)
    · rw [hAp]
      simp only [Node.armSet]
      exact hpR.congr_arena fun j h1 h2 => hAother j (by omega) (by omega)

/-- The final zig rotation below a `Right` frame at the root. -/
theorem zigOnce_R {b : Arena} {n p plo hi : Nat}
    (hnb : Covers b (NodeRef.internal n) (p + 1) hi)
    (hpL : Covers b (b.nodes p).left plo p)
    (hplo : plo ≤ p) :
    Covers (zigOnce b n p .right) (NodeRef.internal n) plo hi ∧
    (zigOnce b n p .right).root = b.root := by
  obtain ⟨hpn, hnhi⟩ := hnb.internal_bounds
  have hA1 : zigOnce b n p .right =
      (b.updArm n .left (NodeRef.internal p)).updArm p .right
        ((b.nodes n).arm .left) := rfl
  have hAn : (zigOnce b n p .right).nodes n =
      (b.nodes n).armSet .left (NodeRef.internal p) := by
    rw [hA1, Arena.updArm_nodes_ne _ _ _ _ _ (show n ≠ p by omega),
      Arena.updArm_nodes_eq]
  have hAp : (zigOnce b n p .right).nodes p =
      (b.nodes p).armSet .right ((b.nodes n).arm .left) := by
    rw [hA1, Arena.updArm_nodes_eq, Arena.updArm_nodes_ne _ _ _ _ _ (show p ≠ n by omega)]
  have hAother : ∀ j, j ≠ n → j ≠ p → (zigOnce b n p .right).nodes j = b.nodes j := by
    intro j hjn hjp
    rw [hA1, Arena.updArm_nodes_ne _ _ _ _ _ hjp, Arena.updArm_nodes_ne _ _ _ _ _ hjn]
  refine ⟨Covers.internal n plo hi (by omega) (by omega) ?_ ?_, by rw [hA1]; rfl⟩
  · rw [hAn]
    simp only [Node.armSet]
    refine Covers.internal p plo n (by omega) (by omega) ?_ ?_
    · rw [hAp]
      simp only [Node.armSet]
      exact hpL.congr_arena fun j h1 h2 => hAother j (by omega) (by omega)
    · rw [hAp]
      simp only [Node.armSet, Node.arm]
      exact hnb.internal_left.congr_arena fun j h1 h2 => hAother j (by omega) (by omega)
  · rw [hAn]
    simp only [Node.armSet]
    exact hnb.internal_right.congr_arena fun j h1 h2 => hAother j (by omega) (by omega)

theorem ChainUp.head_range {a : Arena} {max : Nat} {r : NodeRef} {lo hi q : Nat}
    {d : Direction} {rest : List Frame}
    (h : ChainUp a max r lo hi ((q, d) :: rest)) : hi = q ∨ lo = q + 1 := by
  cases d with
  | left => exact Or.inl h.2.1
  | right => exact Or.inr h.2.1

/-- The splay loop of `splay_internal`: run on a genuine descent context,
its assertions hold, it makes `n` the arena root, and it re-establishes
whole-tree consistency. -/
theorem splayInternal_ok {max : Nat} :
    ∀ (stack : List Frame) (a : Arena) (n lo hi : Nat),
      Covers a (NodeRef.internal n) lo hi →
      ChainUp a max (NodeRef.internal n) lo hi stack →
      ∃ a', splayInternal a n stack = .ok a' ∧ a'.root = n ∧
        Covers a' (NodeRef.internal n) 0 max
  | [], a, n, lo, hi, hcov, hchain => by
    obtain ⟨hr, hlo, hhi⟩ := hchain
    subst hlo; subst hhi
    have hn : n = a.root := by injection hr
    exact ⟨a, rfl, hn.symm, hcov⟩
  | [(p, pd)], a, n, lo, hi, hcov, hchain => by
    cases pd with
    | left =>
      obtain ⟨hpl, hhi, phi, hpphi, hpcovR, hchain2⟩ := hchain
      obtain ⟨hpr, hlo, hphi⟩ := hchain2
      have hproot : p = a.root := by injection hpr
      subst hi; subst hlo; subst phi
      simp only [splayInternal]
      rw [if_neg (by simp [Node.arm, hpl]), if_neg (by omega)]
      have hnb : Covers (a.updRoot n) (NodeRef.internal n) 0 p :=
        hcov.congr_arena fun _ _ _ => rfl
      have hpR : Covers (a.updRoot n) ((a.updRoot n).nodes p).right (p + 1) max :=
        hpcovR.congr_arena fun _ _ _ => rfl
      obtain ⟨hcovA, hrootA⟩ := zigOnce_L hnb hpR hpphi
      exact ⟨_, rfl, hrootA, hcovA⟩
    | right =>
      obtain ⟨hpr, hlo, plo, hplop, hpcovL, hchain2⟩ := hchain
      obtain ⟨hprf, hplo, hhi⟩ := hchain2
      have hproot : p = a.root := by injection hprf
      subst hlo; subst hplo; subst hi
      simp only [splayInternal]
      rw [if_neg (by simp [Node.arm, hpr]), if_neg (by omega)]
      have hnb : Covers (a.updRoot n) (NodeRef.internal n) (p + 1) max :=
        hcov.congr_arena fun _ _ _ => rfl
      have hpL : Covers (a.updRoot n) ((a.updRoot n).nodes p).left 0 p :=
        hpcovL.congr_arena fun _ _ _ => rfl
      obtain ⟨hcovA, hrootA⟩ := zigOnce_R hnb hpL hplop
      exact ⟨_, rfl, hrootA, hcovA⟩
  | (p, pd) :: (g, gd) :: rest, a, n, lo, hi, hcov, hchain => by
    cases pd with
    | left =>
      obtain ⟨hpl, hhi, phi, hpphi, hpcovR, hchain2⟩ := hchain
      subst hi
      cases gd with
      | left =>
        obtain ⟨hgl, hphig, ghi, hgghi, hgcovR, hchain3⟩ := hchain2
        subst phi
        obtain ⟨hlon, hnp⟩ := hcov.internal_bounds
        rcases rest with _ | ⟨⟨q, qd⟩, rest2⟩
        · simp only [splayInternal]
          rw [if_neg (by simp [Node.arm, hpl]), if_neg (by simp [Node.arm, hgl])]
          obtain ⟨hgr, hlo0, hghimax⟩ := hchain3
          have hgroot : g = a.root := by injection hgr
          subst hlo0; subst ghi
          have hnb : Covers (a.updRoot n) (NodeRef.internal n) 0 p :=
            hcov.congr_arena fun _ _ _ => rfl
          have hpR : Covers (a.updRoot n) ((a.updRoot n).nodes p).right (p + 1) g :=
            hpcovR.congr_arena fun _ _ _ => rfl
          have hgR : Covers (a.updRoot n) ((a.updRoot n).nodes g).right (g + 1) max :=
            hgcovR.congr_arena fun _ _ _ => rfl
          obtain ⟨hcovA, hotherA, hrootA⟩ := rotateOnce_LL hnb hpR hgR hpphi hgghi
          have hchainA : ChainUp (rotateOnce (a.updRoot n) n p g .left .left) max
              (NodeRef.internal n) 0 max ([] : List Frame) := by
            refine ⟨?_, rfl, rfl⟩
            have : (rotateOnce (a.updRoot n) n p g .left .left).root = n := hrootA
            rw [this]
          exact splayInternal_ok [] _ n 0 max hcovA hchainA
        · simp only [splayInternal]
          rw [if_neg (by simp [Node.arm, hpl]), if_neg (by simp [Node.arm, hgl])]
          have hqarm := hchain3.head_arm
          have hqrange := hchain3.head_range
          obtain ⟨hlon2, _⟩ := hcov.internal_bounds
          have hqn : q ≠ n := by omega
          have hqp : q ≠ p := by omega
          have hqg : q ≠ g := by omega
          rw [if_neg (by simp [hqarm])]
          have hbag : ∀ j, lo ≤ j → j < ghi →
              (a.updArm q qd (NodeRef.internal n)).nodes j = a.nodes j := by
            intro j h1 h2
            exact Arena.updArm_nodes_ne _ _ _ _ _ (by omega)
          have hnb : Covers (a.updArm q qd (NodeRef.internal n))
              (NodeRef.internal n) lo p :=
            hcov.congr_arena fun j h1 h2 => hbag j h1 (by omega)
          have hpR : Covers (a.updArm q qd (NodeRef.internal n))
              ((a.updArm q qd (NodeRef.internal n)).nodes p).right (p + 1) g := by
            rw [hbag p (by omega) (by omega)]
            exact hpcovR.congr_arena fun j h1 h2 => hbag j (by omega) (by omega)
          have hgR : Covers (a.updArm q qd (NodeRef.internal n))
              ((a.updArm q qd (NodeRef.internal n)).nodes g).right (g + 1) ghi := by
            rw [hbag g (by omega) (by omega)]
            exact hgcovR.congr_arena fun j h1 h2 => hbag j (by omega) (by omega)
          obtain ⟨hcovA, hotherA, hrootA⟩ := rotateOnce_LL hnb hpR hgR hpphi hgghi
          have harmA : ((rotateOnce (a.updArm q qd (NodeRef.internal n)) n p g
              .left .left).nodes q).arm qd = NodeRef.internal n := by
            rw [hotherA q hqn hqp hqg, Arena.updArm_nodes_eq, Node.arm_armSet_self]
          have hoppA : ((rotateOnce (a.updArm q qd (NodeRef.internal n)) n p g
              .left .left).nodes q).arm qd.opposite = (a.nodes q).arm qd.opposite := by
            rw [hotherA q hqn hqp hqg, Arena.updArm_nodes_eq, Node.arm_armSet_opp]
          have hagA : ∀ j, j < lo ∨ ghi ≤ j → j ≠ q →
              (rotateOnce (a.updArm q qd (NodeRef.internal n)) n p g
                .left .left).nodes j = a.nodes j := by
            intro j hj hjq
            rw [hotherA j (by omega) (by omega) (by omega),
              Arena.updArm_nodes_ne _ _ _ _ _ hjq]
          have hrootA2 : (rotateOnce (a.updArm q qd (NodeRef.internal n)) n p g
              .left .left).root = a.root := hrootA
          have hchainA := hchain3.retarget (by omega) harmA hoppA hagA hrootA2
          exact splayInternal_ok ((q, qd) :: rest2) _ n lo ghi hcovA hchainA
      | right =>
        obtain ⟨hgr, hlog, glo, hglog, hgcovL, hchain3⟩ := hchain2
        subst hlog
        obtain ⟨hgn, hnp⟩ := hcov.internal_bounds
        rcases rest with _ | ⟨⟨q, qd⟩, rest2⟩
        · simp only [splayInternal]
          rw [if_neg (by simp [Node.arm, hpl]), if_neg (by simp [Node.arm, hgr])]
          obtain ⟨hgrf, hglo0, hphimax⟩ := hchain3
          have hgroot : g = a.root := by injection hgrf
          subst hglo0; subst phi
          have hnb : Covers (a.updRoot n) (NodeRef.internal n) (g + 1) p :=
            hcov.congr_arena fun _ _ _ => rfl
          have hpR : Covers (a.updRoot n) ((a.updRoot n).nodes p).right (p + 1) max :=
            hpcovR.congr_arena fun _ _ _ => rfl
          have hgL : Covers (a.updRoot n) ((a.updRoot n).nodes g).left 0 g :=
            hgcovL.congr_arena fun _ _ _ => rfl
          obtain ⟨hcovA, hotherA, hrootA⟩ := rotateOnce_LR hnb hpR hgL (by omega) hpphi
          have hchainA : ChainUp (rotateOnce (a.updRoot n) n p g .left .right) max
              (NodeRef.internal n) 0 max ([] : List Frame) := by
            refine ⟨?_, rfl, rfl⟩
            have : (rotateOnce (a.updRoot n) n p g .left .right).root = n := hrootA
            rw [this]
          exact splayInternal_ok [] _ n 0 max hcovA hchainA
        · simp only [splayInternal]
          rw [if_neg (by simp [Node.arm, hpl]), if_neg (by simp [Node.arm, hgr])]
          have hqarm := hchain3.head_arm
          have hqrange := hchain3.head_range
          have hqn : q ≠ n := by omega
          have hqp : q ≠ p := by omega
          have hqg : q ≠ g := by omega
          rw [if_neg (by simp [hqarm])]
          have hbag : ∀ j, glo ≤ j → j < phi →
              (a.updArm q qd (NodeRef.internal n)).nodes j = a.nodes j := by
            intro j h1 h2
            exact Arena.updArm_nodes_ne _ _ _ _ _ (by omega)
          have hnb : Covers (a.updArm q qd (NodeRef.internal n))
              (NodeRef.internal n) (g + 1) p :=
            hcov.congr_arena fun j h1 h2 => hbag j (by omega) (by omega)
          have hpR : Covers (a.updArm q qd (NodeRef.internal n))
              ((a.updArm q qd (NodeRef.internal n)).nodes p).right (p + 1) phi := by
            rw [hbag p (by omega) (by omega)]
            exact hpcovR.congr_arena fun j h1 h2 => hbag j (by omega) (by omega)
          have hgL : Covers (a.updArm q qd (NodeRef.internal n))
              ((a.updArm q qd (NodeRef.internal n)).nodes g).left glo g := by
            rw [hbag g (by omega) (by omega)]
            exact hgcovL.congr_arena fun j h1 h2 => hbag j (by omega) (by omega)
          obtain ⟨hcovA, hotherA, hrootA⟩ := rotateOnce_LR hnb hpR hgL hglog hpphi
          have harmA : ((rotateOnce (a.updArm q qd (NodeRef.internal n)) n p g
              .left .right).nodes q).arm qd = NodeRef.internal n := by
            rw [hotherA q hqn hqp hqg, Arena.updArm_nodes_eq, Node.arm_armSet_self]
          have hoppA : ((rotateOnce (a.updArm q qd (NodeRef.internal n)) n p g
              .left .right).nodes q).arm qd.opposite = (a.nodes q).arm qd.opposite := by
            rw [hotherA q hqn hqp hqg, Arena.updArm_nodes_eq, Node.arm_armSet_opp]
          have hagA : ∀ j, j < glo ∨ phi ≤ j → j ≠ q →
              (rotateOnce (a.updArm q qd (NodeRef.internal n)) n p g
                .left .right).nodes j = a.nodes j := by
            intro j hj hjq
            rw [hotherA j (by omega) (by omega) (by omega),
              Arena.updArm_nodes_ne _ _ _ _ _ hjq]
          have hrootA2 : (rotateOnce (a.updArm q qd (NodeRef.internal n)) n p g
              .left .right).root = a.root := hrootA
          have hchainA := hchain3.retarget (by omega) harmA hoppA hagA hrootA2
          exact splayInternal_ok ((q, qd) :: rest2) _ n glo phi hcovA hchainA
    | right =>
      obtain ⟨hpr, hlo, plo, hplop, hpcovL, hchain2⟩ := hchain
      subst hlo
      cases gd with
      | left =>
        obtain ⟨hgl, hphig, ghi, hgghi, hgcovR, hchain3⟩ := hchain2
        subst hi
        obtain ⟨hpn, hng⟩ := hcov.internal_bounds
        rcases rest with _ | ⟨⟨q, qd⟩, rest2⟩
        · simp only [splayInternal]
          rw [if_neg (by simp [Node.arm, hpr]), if_neg (by simp [Node.arm, hgl])]
          obtain ⟨hgrf, hplo0, hghimax⟩ := hchain3
          have hgroot : g = a.root := by injection hgrf
          subst hplo0; subst ghi
          have hnb : Covers (a.updRoot n) (NodeRef.internal n) (p + 1) g :=
            hcov.congr_arena fun _ _ _ => rfl
          have hpL : Covers (a.updRoot n) ((a.updRoot n).nodes p).left 0 p :=
            hpcovL.congr_arena fun _ _ _ => rfl
          have hgR : Covers (a.updRoot n) ((a.updRoot n).nodes g).right (g + 1) max :=
            hgcovR.congr_arena fun _ _ _ => rfl
          obtain ⟨hcovA, hotherA, hrootA⟩ := rotateOnce_RL hnb hpL hgR (by omega) hgghi
          have hchainA : ChainUp (rotateOnce (a.updRoot n) n p g .right .left) max
              (NodeRef.internal n) 0 max ([] : List Frame) := by
            refine ⟨?_, rfl, rfl⟩
            have : (rotateOnce (a.updRoot n) n p g .right .left).root = n := hrootA
            rw [this]
          exact splayInternal_ok [] _ n 0 max hcovA hchainA
        · simp only [splayInternal]
          rw [if_neg (by simp [Node.arm, hpr]), if_neg (by simp [Node.arm, hgl])]
          have hqarm := hchain3.head_arm
          have hqrange := hchain3.head_range
          have hqn : q ≠ n := by omega
          have hqp : q ≠ p := by omega
          have hqg : q ≠ g := by omega
          rw [if_neg (by simp [hqarm])]
          have hbag : ∀ j, plo ≤ j → j < ghi →
              (a.updArm q qd (NodeRef.internal n)).nodes j = a.nodes j := by
            intro j h1 h2
            exact Arena.updArm_nodes_ne _ _ _ _ _ (by omega)
          have hnb : Covers (a.updArm q qd (NodeRef.internal n))
              (NodeRef.internal n) (p + 1) g :=
            hcov.congr_arena fun j h1 h2 => hbag j (by omega) (by omega)
          have hpL : Covers (a.updArm q qd (NodeRef.internal n))
              ((a.updArm q qd (NodeRef.internal n)).nodes p).left plo p := by
            rw [hbag p (by omega) (by omega)]
            exact hpcovL.congr_arena fun j h1 h2 => hbag j (by omega) (by omega)
          have hgR : Covers (a.updArm q qd (NodeRef.internal n))
              ((a.updArm q qd (NodeRef.internal n)).nodes g).right (g + 1) ghi := by
            rw [hbag g (by omega) (by omega)]
            exact hgcovR.congr_arena fun j h1 h2 => hbag j (by omega) (by omega)
          obtain ⟨hcovA, hotherA, hrootA⟩ := rotateOnce_RL hnb hpL hgR hplop hgghi
          have harmA : ((rotateOnce (a.updArm q qd (NodeRef.internal n)) n p g
              .right .left).nodes q).arm qd = NodeRef.internal n := by
            rw [hotherA q hqn hqp hqg, Arena.updArm_nodes_eq, Node.arm_armSet_self]
          have hoppA : ((rotateOnce (a.updArm q qd (NodeRef.internal n)) n p g
              .right .left).nodes q).arm qd.opposite = (a.nodes q).arm qd.opposite := by
            rw [hotherA q hqn hqp hqg, Arena.updArm_nodes_eq, Node.arm_armSet_opp]
          have hagA : ∀ j, j < plo ∨ ghi ≤ j → j ≠ q →
              (rotateOnce (a.updArm q qd (NodeRef.internal n)) n p g
                .right .left).nodes j = a.nodes j := by
            intro j hj hjq
            rw [hotherA j (by omega) (by omega) (by omega),
              Arena.updArm_nodes_ne _ _ _ _ _ hjq]
          have hrootA2 : (rotateOnce (a.updArm q qd (NodeRef.internal n)) n p g
              .right .left).root = a.root := hrootA
          have hchainA := hchain3.retarget (by omega) harmA hoppA hagA hrootA2
          exact splayInternal_ok ((q, qd) :: rest2) _ n plo ghi hcovA hchainA
      | right =>
        obtain ⟨hgr, hplog, glo, hglog, hgcovL, hchain3⟩ := hchain2
        subst hplog
        obtain ⟨hpn, hnhi⟩ := hcov.internal_bounds
        rcases rest with _ | ⟨⟨q, qd⟩, rest2⟩
        · simp only [splayInternal]
          rw [if_neg (by simp [Node.arm, hpr]), if_neg (by simp [Node.arm, hgr])]
          obtain ⟨hgrf, hglo0, hhimax⟩ := hchain3
          have hgroot : g = a.root := by injection hgrf
          subst hglo0; subst hi
          have hnb : Covers (a.updRoot n) (NodeRef.internal n) (p + 1) max :=
            hcov.congr_arena fun _ _ _ => rfl
          have hpL : Covers (a.updRoot n) ((a.updRoot n).nodes p).left (g + 1) p :=
            hpcovL.congr_arena fun _ _ _ => rfl
          have hgL : Covers (a.updRoot n) ((a.updRoot n).nodes g).left 0 g :=
            hgcovL.congr_arena fun _ _ _ => rfl
          obtain ⟨hcovA, hotherA, hrootA⟩ := rotateOnce_RR hnb hpL hgL (by omega) (by omega)
          have hchainA : ChainUp (rotateOnce (a.updRoot n) n p g .right .right) max
              (NodeRef.internal n) 0 max ([] : List Frame) := by
            refine ⟨?_, rfl, rfl⟩
            have : (rotateOnce (a.updRoot n) n p g .right .right).root = n := hrootA
            rw [this]
          exact splayInternal_ok [] _ n 0 max hcovA hchainA
        · simp only [splayInternal]
          rw [if_neg (by simp [Node.arm, hpr]), if_neg (by simp [Node.arm, hgr])]
          have hqarm := hchain3.head_arm
          have hqrange := hchain3.head_range
          have hqn : q ≠ n := by omega
          have hqp : q ≠ p := by omega
          have hqg : q ≠ g := by omega
          rw [if_neg (by simp [hqarm])]
          have hbag : ∀ j, glo ≤ j → j < hi →
              (a.updArm q qd (NodeRef.internal n)).nodes j = a.nodes j := by
            intro j h1 h2
            exact Arena.updArm_nodes_ne _ _ _ _ _ (by omega)
          have hnb : Covers (a.updArm q qd (NodeRef.internal n))
              (NodeRef.internal n) (p + 1) hi :=
            hcov.congr_arena fun j h1 h2 => hbag j (by omega) (by omega)
          have hpL : Covers (a.updArm q qd (NodeRef.internal n))
              ((a.updArm q qd (NodeRef.internal n)).nodes p).left (g + 1) p := by
            rw [hbag p (by omega) (by omega)]
            exact hpcovL.congr_arena fun j h1 h2 => hbag j (by omega) (by omega)
          have hgL : Covers (a.updArm q qd (NodeRef.internal n))
              ((a.updArm q qd (NodeRef.internal n)).nodes g).left glo g := by
            rw [hbag g (by omega) (by omega)]
            exact hgcovL.congr_arena fun j h1 h2 => hbag j (by omega) (by omega)
          obtain ⟨hcovA, hotherA, hrootA⟩ := rotateOnce_RR hnb hpL hgL (by omega) hglog
          have harmA : ((rotateOnce (a.updArm q qd (NodeRef.internal n)) n p g
              .right .right).nodes q).arm qd = NodeRef.internal n := by
            rw [hotherA q hqn hqp hqg, Arena.updArm_nodes_eq, Node.arm_armSet_self]
          have hoppA : ((rotateOnce (a.updArm q qd (NodeRef.internal n)) n p g
              .right .right).nodes q).arm qd.opposite = (a.nodes q).arm qd.opposite := by
            rw [hotherA q hqn hqp hqg, Arena.updArm_nodes_eq, Node.arm_armSet_opp]
          have hagA : ∀ j, j < glo ∨ hi ≤ j → j ≠ q →
              (rotateOnce (a.updArm q qd (NodeRef.internal n)) n p g
                .right .right).nodes j = a.nodes j := by
            intro j hj hjq
            rw [hotherA j (by omega) (by omega) (by omega),
              Arena.updArm_nodes_ne _ _ _ _ _ hjq]
          have hrootA2 : (rotateOnce (a.updArm q qd (NodeRef.internal n)) n p g
              .right .right).root = a.root := hrootA
          have hchainA := hchain3.retarget (by omega) harmA hoppA hagA hrootA2
          exact splayInternal_ok ((q, qd) :: rest2) _ n glo hi hcovA hchainA

/-- `splay_parent_of_leaf` on a genuine walker state at a leaf: it pops the
parent `p`, the splay succeeds, the returned stack is empty, and the arena is
again consistent with `p` at the root. -/
theorem splayParentOfLeaf_ok {max : Nat} {a : Arena} {s p : Nat} {pd : Direction}
    {rest : List Frame}
    (hchain : ChainUp a max (NodeRef.leaf s) s s ((p, pd) :: rest)) :
    ∃ a', splayParentOfLeaf a (NodeRef.leaf s) ((p, pd) :: rest) =
        .ok (a', NodeRef.internal p, []) ∧
      a'.root = p ∧ Covers a' (NodeRef.internal p) 0 max := by
  cases pd with
  | left =>
    obtain ⟨hpl, hsp, qhi, hpq, hcovR, hchain2⟩ := hchain
    subst s
    have hcov : Covers a (NodeRef.internal p) p qhi := by
      refine Covers.internal p p qhi (le_refl p) hpq ?_ hcovR
      rw [hpl]
      exact Covers.leaf p
    obtain ⟨a', hrun, hroot, hcov'⟩ := splayInternal_ok rest a p p qhi hcov hchain2
    refine ⟨a', ?_, hroot, hcov'⟩
    simp only [splayParentOfLeaf, hrun]
  | right =>
    obtain ⟨hpr, hsp, qlo, hqlo, hcovL, hchain2⟩ := hchain
    subst s
    have hcov : Covers a (NodeRef.internal p) qlo (p + 1) := by
      refine Covers.internal p qlo (p + 1) hqlo (by omega) hcovL ?_
      rw [hpr]
      exact Covers.leaf (p + 1)
    obtain ⟨a', hrun, hroot, hcov'⟩ := splayInternal_ok rest a p qlo (p + 1) hcov hchain2
    refine ⟨a', ?_, hroot, hcov'⟩
    simp only [splayParentOfLeaf, hrun]

/-- One successful `go` step keeps the walker invariant: the new hole is a
consistent subtree and the grown stack is a genuine descent context. -/
theorem go_ok_inv {a : Arena} {max : Nat} {node : NodeRef} {stack : List Frame}
    {d : Direction} {lo hi : Nat} {node' : NodeRef} {stack' : List Frame}
    (hcov : Covers a node lo hi) (hchain : ChainUp a max node lo hi stack)
    (hgo : go a node stack d = .ok (node', stack')) :
    ∃ lo' hi', Covers a node' lo' hi' ∧ ChainUp a max node' lo' hi' stack' := by
  cases hcov with
  | leaf s => simp [go] at hgo
  | internal v lo hi h1 h2 hL hR =>
    simp only [go, Except.ok.injEq, Prod.mk.injEq] at hgo
    obtain ⟨hn, hs⟩ := hgo
    subst node'; subst stack'
    cases d with
    | left => exact ⟨lo, v, hL, rfl, rfl, hi, h2, hR, hchain⟩
    | right => exact ⟨v + 1, hi, hR, rfl, rfl, lo, h1, hL, hchain⟩

/-- A successful `go` descent sequence keeps the walker invariant. -/
theorem goSeq_inv {a : Arena} {max : Nat} :
    ∀ (dirs : List Direction) (node : NodeRef) (stack : List Frame) (lo hi : Nat)
      (node' : NodeRef) (stack' : List Frame),
      Covers a node lo hi → ChainUp a max node lo hi stack →
      goSeq a node stack dirs = .ok (node', stack') →
      ∃ lo' hi', Covers a node' lo' hi' ∧ ChainUp a max node' lo' hi' stack'
  | [], node, stack, lo, hi, node', stack', hcov, hchain, hrun => by
    simp only [goSeq, Except.ok.injEq, Prod.mk.injEq] at hrun
    obtain ⟨h1, h2⟩ := hrun
    subst node'; subst stack'
    exact ⟨lo, hi, hcov, hchain⟩
  | d :: rest, node, stack, lo, hi, node', stack', hcov, hchain, hrun => by
    simp only [goSeq] at hrun
    rcases hgo : go a node stack d with e | ⟨node1, stack1⟩
    · rw [hgo] at hrun
      simp at hrun
    · rw [hgo] at hrun
      obtain ⟨lo1, hi1, hcov1, hchain1⟩ := go_ok_inv hcov hchain hgo
      exact goSeq_inv rest node1 stack1 lo1 hi1 node' stack' hcov1 hchain1 hrun

/-- C4: any `go` descent from the root of a consistent tree that ends at a
leaf, followed by `splay_parent_of_leaf`, succeeds; afterwards the walker's
ancestor stack is empty, the arena root is the splayed former-parent internal
node, and the structural consistency check holds again. -/
theorem descent_splay_restores_consistency {max : Nat} {a : Arena}
    {dirs : List Direction} {s : Nat} {stack : List Frame}
    (hcons : a.isConsistentB max = true)
    (hrun : goSeq a (NodeRef.internal a.root) [] dirs = .ok (NodeRef.leaf s, stack)) :
    ∃ a' p, splayParentOfLeaf a (NodeRef.leaf s) stack = .ok (a', NodeRef.internal p, []) ∧
      a'.root = p ∧ a'.isConsistentB max = true := by
  have hcov0 := (isConsistentB_iff_covers max a).mp hcons
  have hchain0 : ChainUp a max (NodeRef.internal a.root) 0 max [] := ⟨rfl, rfl, rfl⟩
  obtain ⟨lo, hi, hcovL, hchainL⟩ :=
    goSeq_inv dirs (NodeRef.internal a.root) [] 0 max (NodeRef.leaf s) stack
      hcov0 hchain0 hrun
  obtain ⟨hlo, hhi⟩ := hcovL.leaf_eq
  subst lo; subst hi
  rcases stack with _ | ⟨⟨p, pd⟩, rest⟩
  · obtain ⟨habs, _, _⟩ := hchainL
    exact NodeRef.noConfusion habs
  · obtain ⟨a', hspl, hroot, hcov'⟩ := splayParentOfLeaf_ok hchainL
    refine ⟨a', p, hspl, hroot, ?_⟩
    rw [isConsistentB_iff_covers, hroot]
    exact hcov'

set_option maxRecDepth 10000 in
theorem descent_splay_restores_consistency_witness :
    (Arena8.newUniform.isConsistentB 255 = true ∧
      goSeq Arena8.newUniform (NodeRef.internal Arena8.newUniform.root) []
        [.left, .left, .left, .left, .left, .left, .left, .left] =
      .ok (NodeRef.leaf 0,
        [(0, .left), (1, .left), (3, .left), (7, .left), (15, .left), (31, .left),
         (63, .left), (127, .left)])) ∧
    ∃ a' p, splayParentOfLeaf Arena8.newUniform (NodeRef.leaf 0)
        [(0, .left), (1, .left), (3, .left), (7, .left), (15, .left), (31, .left),
         (63, .left), (127, .left)] = .ok (a', NodeRef.internal p, []) ∧
      a'.root = p ∧ a'.isConsistentB 255 = true :=
  ⟨⟨by decide, rfl⟩,
    @descent_splay_restores_consistency 255 Arena8.newUniform
      [.left, .left, .left, .left, .left, .left, .left, .left] 0
      [(0, .left), (1, .left), (3, .left), (7, .left), (15, .left), (31, .left),
       (63, .left), (127, .left)] (by decide) rfl⟩

/-- The encoder's descent loop, run on a subtree covering `[lo, hi]` with the
target symbol inside the cover and enough fuel: it succeeds, stops exactly at
the symbol's leaf, writes the comparison path `dirPath`, and its walker moves
exactly as the `go` sequence along that path. -/
theorem descendLoop_spec {a : Arena} {s : Nat} :
    ∀ fuel (node : NodeRef) (stack : List Frame) (bw : BW) (lo hi : Nat),
      Covers a node lo hi → lo ≤ s → s ≤ hi → hi - lo < fuel →
      ∃ stack', descendLoop s fuel a node stack bw =
          .ok (NodeRef.leaf s, stack', bw.writeMany (dirPath a s fuel node)) ∧
        goSeq a node stack ((dirPath a s fuel node).map Direction.fromBit) =
          .ok (NodeRef.leaf s, stack')
  | 0, node, stack, bw, lo, hi, hcov, h1, h2, hf => absurd hf (by omega)
  | fuel + 1, node, stack, bw, lo, hi, hcov, h1, h2, hf => by
    cases hcov with
    | leaf =>
      have hst : s = lo := by omega
      subst s
      exact ⟨stack, by simp [descendLoop, dirPath, BW.writeMany], by simp [dirPath, goSeq]⟩
    | internal v lo hi hv1 hv2 hL hR =>
      by_cases hbit : s > v
      · have hb : decide (s > v) = true := decide_eq_true hbit
        have hstep : descendLoop s (fuel + 1) a (NodeRef.internal v) stack bw =
            descendLoop s fuel a ((a.nodes v).arm .right) ((v, .right) :: stack)
              (bw.writeBit true) := by
          simp [descendLoop, currentValue, go, hb, Direction.fromBit]
        have hpath : dirPath a s (fuel + 1) (NodeRef.internal v) =
            true :: dirPath a s fuel ((a.nodes v).arm .right) := by
          simp [dirPath, hb, Direction.fromBit]
        obtain ⟨stack', hd, hg⟩ :=
          descendLoop_spec fuel ((a.nodes v).arm .right) ((v, .right) :: stack)
            (bw.writeBit true) (v + 1) hi hR (by omega) h2 (by omega)
        refine ⟨stack', ?_, ?_⟩
        · rw [hstep, hpath]
          exact hd
        · rw [hpath]
          simp only [List.map_cons, goSeq, go, Direction.fromBit]
          exact hg
      · have hb : decide (s > v) = false := decide_eq_false hbit
        have hstep : descendLoop s (fuel + 1) a (NodeRef.internal v) stack bw =
            descendLoop s fuel a ((a.nodes v).arm .left) ((v, .left) :: stack)
              (bw.writeBit false) := by
          simp [descendLoop, currentValue, go, hb, Direction.fromBit]
        have hpath : dirPath a s (fuel + 1) (NodeRef.internal v) =
            false :: dirPath a s fuel ((a.nodes v).arm .left) := by
          simp [dirPath, hb, Direction.fromBit]
        obtain ⟨stack', hd, hg⟩ :=
          descendLoop_spec fuel ((a.nodes v).arm .left) ((v, .left) :: stack)
            (bw.writeBit false) lo v hL h1 (by omega) (by omega)
        refine ⟨stack', ?_, ?_⟩
        · rw [hstep, hpath]
          exact hd
        · rw [hpath]
          simp only [List.map_cons, goSeq, go, Direction.fromBit]
          exact hg

/-- C5: on a consistent tree, the encoder's per-symbol descent loop (descend
`Left` when `symbol > current_value()` is false, `Right` when true, writing
the bit each round) exits exactly at the leaf of the symbol being encoded. -/
theorem descend_exits_at_symbol_leaf {max s fuel : Nat} {a : Arena} {bw : BW}
    (hcons : a.isConsistentB max = true) (hs : s ≤ max) (hf : max < fuel) :
    ∃ stack' bw', descendLoop s fuel a (NodeRef.internal a.root) [] bw =
      .ok (NodeRef.leaf s, stack', bw') := by
  have hcov := (isConsistentB_iff_covers max a).mp hcons
  obtain ⟨stack', hd, _⟩ :=
    descendLoop_spec fuel (NodeRef.internal a.root) [] bw 0 max hcov (by omega) hs (by omega)
  exact ⟨stack', _, hd⟩

set_option maxRecDepth 10000 in
theorem descend_exits_at_symbol_leaf_witness :
    (Arena8.newUniform.isConsistentB 255 = true ∧ 72 ≤ 255 ∧ 255 < 256) ∧
    ∃ stack' bw', descendLoop 72 256 Arena8.newUniform
        (NodeRef.internal Arena8.newUniform.root) [] BW.init =
      .ok (NodeRef.leaf 72, stack', bw') :=
  ⟨⟨by decide, by decide, by decide⟩,
    @descend_exits_at_symbol_leaf 255 72 256 Arena8.newUniform BW.init
      (by decide) (by decide) (by decide)⟩

theorem Covers.internal_of_lt {a : Arena} {r : NodeRef} {lo hi : Nat}
    (h : Covers a r lo hi) (hlt : lo < hi) : ∃ c, r = NodeRef.internal c := by
  cases h with
  | leaf s => omega
  | internal i _ _ _ _ _ _ => exact ⟨i, rfl⟩

/-- Half of the symbol interval survives into one of the two children: a
subtree of width at least `2^(k+1)` has an internal child of width at least
`2^k`. -/
theorem wide_child {a : Arena} {v lo hi k : Nat}
    (hcov : Covers a (NodeRef.internal v) lo hi) (hw : 2 ^ (k + 1) ≤ hi - lo) :
    ∃ d c lo' hi', (a.nodes v).arm d = NodeRef.internal c ∧
      Covers a (NodeRef.internal c) lo' hi' ∧ 2 ^ k ≤ hi' - lo' := by
  obtain ⟨h1, h2⟩ := hcov.internal_bounds
  have hL := hcov.internal_left
  have hR := hcov.internal_right
  have hpow : 2 ^ (k + 1) = 2 * 2 ^ k := by ring
  have hpos : 0 < 2 ^ k := pow_pos (by norm_num) k
  by_cases hwl : 2 ^ k ≤ v - lo
  · obtain ⟨c, hc⟩ := hL.internal_of_lt (by omega)
    exact ⟨.left, c, lo, v, hc, hc ▸ hL, by omega⟩
  · have hwr : 2 ^ k ≤ hi - (v + 1) := by omega
    obtain ⟨c, hc⟩ := hR.internal_of_lt (by omega)
    exact ⟨.right, c, v + 1, hi, hc, hc ▸ hR, hwr⟩

/-- `find_deep_internal`'s breadth-first loop never runs out of candidates
when some candidate's subtree is wide enough for the remaining rounds. -/
theorem findDeepLoop_ok {a : Arena} :
    ∀ (rounds : Nat) (cands : List Nat) (c lo hi : Nat),
      c ∈ cands → Covers a (NodeRef.internal c) lo hi → 2 ^ rounds ≤ hi - lo →
      ∃ res, findDeepLoop a rounds cands = .ok res ∧ res ≠ []
  | 0, cands, c, lo, hi, hmem, hcov, hw =>
    ⟨cands, by simp [findDeepLoop], by
      intro h
      rw [h] at hmem
      exact absurd hmem (List.not_mem_nil c)⟩
  | rounds + 1, cands, c, lo, hi, hmem, hcov, hw => by
    have hne : ¬(cands.isEmpty = true) := by
      cases cands with
      | nil => simp at hmem
      | cons x xs => simp [List.isEmpty]
    obtain ⟨d, c', lo', hi', harm, hcov', hw'⟩ := wide_child hcov hw
    have hmem' : c' ∈ cands.flatMap (fun c =>
        [Direction.left, Direction.right].filterMap fun d =>
          ((a.nodes c).arm d).asInternal) := by
      rw [List.mem_flatMap]
      refine ⟨c, hmem, ?_⟩
      rw [List.mem_filterMap]
      exact ⟨d, by cases d <;> simp, by rw [harm]; rfl⟩
    obtain ⟨res, hloop, hresne⟩ := findDeepLoop_ok rounds _ c' lo' hi' hmem' hcov' hw'
    refine ⟨res, ?_, hresne⟩
    simp only [findDeepLoop]
    rw [if_neg hne]
    exact hloop

/-- Everything the breadth-first loop returns is reachable from one of the
starting candidates by exactly `rounds` purely-internal descents. -/
theorem findDeepLoop_path {a : Arena} :
    ∀ (rounds : Nat) (cands res : List Nat),
      findDeepLoop a rounds cands = .ok res →
      ∀ c', c' ∈ res → ∃ c0, c0 ∈ cands ∧ ∃ dirs : List Direction,
        dirs.length = rounds ∧ followInternal a c0 dirs = some c'
  | 0, cands, res, hrun, c', hc' => by
    simp only [findDeepLoop, Except.ok.injEq] at hrun
    subst res
    exact ⟨c', hc', [], rfl, rfl⟩
  | rounds + 1, cands, res, hrun, c', hc' => by
    by_cases hne : cands.isEmpty = true
    · rw [show findDeepLoop a (rounds + 1) cands = .error .panicked from by
        simp only [findDeepLoop]; rw [if_pos hne]] at hrun
      exact Except.noConfusion hrun
    · rw [show findDeepLoop a (rounds + 1) cands = findDeepLoop a rounds
          (cands.flatMap fun c =>
            [Direction.left, Direction.right].filterMap fun d =>
              ((a.nodes c).arm d).asInternal) from by
        simp only [findDeepLoop]; rw [if_neg hne]] at hrun
      obtain ⟨c1, hc1mem, dirs, hlen, hfol⟩ := findDeepLoop_path rounds _ res hrun c' hc'
      rw [List.mem_flatMap] at hc1mem
      obtain ⟨c0, hc0, hc1⟩ := hc1mem
      rw [List.mem_filterMap] at hc1
      obtain ⟨d, _, hd⟩ := hc1
      have harm : (a.nodes c0).arm d = NodeRef.internal c1 := by
        cases hx : (a.nodes c0).arm d with
        | internal w =>
          rw [hx] at hd
          simp only [NodeRef.asInternal, Option.some.injEq] at hd
          rw [hd]
        | leaf w =>
          rw [hx] at hd
          simp [NodeRef.asInternal] at hd
      refine ⟨c0, hc0, d :: dirs, by simp [hlen], ?_⟩
      simp only [followInternal, harm]
      exact hfol

/-- `find_deep_internal` on a consistent, wide-enough tree: survivors exist
in every round and the returned id lies at the end of a `k`-step
purely-internal descent. -/
theorem find_deep_internal_spec {max k : Nat} {a : Arena}
    (hcons : a.isConsistentB max = true) (hk : k ≤ 7) (hmax : 128 ≤ max) :
    ∃ c, findDeepInternal a (NodeRef.internal a.root) k = .ok c ∧
      ∃ dirs : List Direction, dirs.length = k ∧
        followInternal a a.root dirs = some c := by
  have hcov := (isConsistentB_iff_covers max a).mp hcons
  have hwidth : 2 ^ k ≤ max - 0 := by
    have h7 : 2 ^ k ≤ 2 ^ 7 := Nat.pow_le_pow_right (by norm_num) hk
    omega
  obtain ⟨res, hloop, hresne⟩ :=
    findDeepLoop_ok k [a.root] a.root 0 max (List.mem_singleton.mpr rfl) hcov hwidth
  rcases res with _ | ⟨c, rest⟩
  · exact absurd rfl hresne
  · refine ⟨c, ?_, ?_⟩
    · simp only [findDeepInternal, hloop]
    · obtain ⟨c0, hc0, dirs, hlen, hfol⟩ :=
        findDeepLoop_path k [a.root] (c :: rest) hloop c (List.mem_cons_self c rest)
      have hc0r : c0 = a.root := by simpa using hc0
      subst c0
      exact ⟨dirs, hlen, hfol⟩

/-- C3: on a consistent tree wide enough for the byte alphabets and any
`k ≤ 7`, `find_deep_internal(k)` run from the internal root keeps a surviving
candidate through all `k` breadth-first rounds (its assertions never fire)
and returns an internal node reachable from the root by `k` purely-internal
descents. -/
theorem find_deep_internal_ok {max k : Nat} {a : Arena}
    (hcons : a.isConsistentB max = true) (hk : k ≤ 7) (hmax : 128 ≤ max) :
    ∃ c, findDeepInternal a (NodeRef.internal a.root) k = .ok c ∧
      ∃ dirs : List Direction, dirs.length = k ∧
        followInternal a a.root dirs = some c :=
  find_deep_internal_spec hcons hk hmax

set_option maxRecDepth 10000 in
theorem find_deep_internal_ok_witness :
    (Arena8.newUniform.isConsistentB 255 = true ∧ 7 ≤ 7 ∧ 128 ≤ 255) ∧
    ∃ c, findDeepInternal Arena8.newUniform
        (NodeRef.internal Arena8.newUniform.root) 7 = .ok c ∧
      ∃ dirs : List Direction, dirs.length = 7 ∧
        followInternal Arena8.newUniform Arena8.newUniform.root dirs = some c :=
  ⟨⟨by decide, by decide, by decide⟩,
    @find_deep_internal_ok 255 7 Arena8.newUniform (by decide) (by decide) (by decide)⟩

theorem Direction.fromBit_false : Direction.fromBit false = Direction.left := rfl

theorem Direction.fromBit_true : Direction.fromBit true = Direction.right := rfl

theorem BW.nbits_writeBit (bw : BW) (b : Bool) :
    (bw.writeBit b).nbits = if bw.nbits + 1 = 8 then 0 else bw.nbits + 1 := by
  by_cases h7 : bw.nbits + 1 = 8 <;> simp [BW.writeBit, h7]

theorem BW.paddingNeeded_writeBit (bw : BW) (b : Bool) (h : 0 < bw.paddingNeeded) :
    (bw.writeBit b).paddingNeeded = bw.paddingNeeded - 1 := by
  have hn := BW.nbits_writeBit bw b
  have h0 : 0 < bw.nbits ∧ bw.nbits < 8 := by
    by_cases h0 : bw.nbits > 0
    · simp only [BW.paddingNeeded] at h
      rw [if_pos h0] at h
      omega
    · simp only [BW.paddingNeeded] at h
      rw [if_neg h0] at h
      omega
  simp only [BW.paddingNeeded]
  rw [hn]
  by_cases h7 : bw.nbits + 1 = 8
  · rw [if_pos h7, if_neg (by omega), if_pos h0.1]
    omega
  · rw [if_neg h7, if_pos (by omega), if_pos h0.1]
    omega

/-- Any node reached by a purely-internal descent has its index inside the
symbol interval of the subtree the descent started from. -/
theorem followInternal_bounds {a : Arena} :
    ∀ (dirs : List Direction) (v lo hi goal : Nat),
      Covers a (NodeRef.internal v) lo hi →
      followInternal a v dirs = some goal → lo ≤ goal ∧ goal < hi
  | [], v, lo, hi, goal, hcov, hfol => by
    simp only [followInternal, Option.some.injEq] at hfol
    subst goal
    exact hcov.internal_bounds
  | d :: rest, v, lo, hi, goal, hcov, hfol => by
    simp only [followInternal] at hfol
    cases harm : (a.nodes v).arm d with
    | leaf w =>
      rw [harm] at hfol
      simp at hfol
    | internal c =>
      rw [harm] at hfol
      have hfol' : followInternal a c rest = some goal := hfol
      obtain ⟨hb1, hb2⟩ := hcov.internal_bounds
      cases d with
      | left =>
        have harm' : (a.nodes v).left = NodeRef.internal c := harm
        have hcL : Covers a (NodeRef.internal c) lo v := harm' ▸ hcov.internal_left
        have := followInternal_bounds rest c lo v goal hcL hfol'
        omega
      | right =>
        have harm' : (a.nodes v).right = NodeRef.internal c := harm
        have hcR : Covers a (NodeRef.internal c) (v + 1) hi := harm' ▸ hcov.internal_right
        have := followInternal_bounds rest c (v + 1) hi goal hcR hfol'
        omega

/-- The encoder's padding loop run toward a goal that lies at the end of a
purely-internal descent path of exactly the required length: every step lands
on an internal node (neither assertion fires), the loop succeeds, and the bit
buffer ends exactly at a byte boundary. -/
theorem padLoop_ok {a : Arena} {goal : Nat} :
    ∀ (dirs : List Direction) (v lo hi : Nat) (stack : List Frame) (bw : BW),
      Covers a (NodeRef.internal v) lo hi →
      followInternal a v dirs = some goal →
      bw.paddingNeeded = dirs.length →
      ∃ node' stack',
        padLoop goal dirs.length a (NodeRef.internal v) stack bw =
          .ok (node', stack', bw.writeMany (dirs.map Direction.toBit))
  | [], v, lo, hi, stack, bw, hcov, hfol, hpn => ⟨NodeRef.internal v, stack, rfl⟩
  | d :: rest, v, lo, hi, stack, bw, hcov, hfol, hpn => by
    simp only [followInternal] at hfol
    cases harm : (a.nodes v).arm d with
    | leaf w =>
      rw [harm] at hfol
      simp at hfol
    | internal c =>
      rw [harm] at hfol
      have hfol' : followInternal a c rest = some goal := hfol
      cases d with
      | left =>
        have harm' : (a.nodes v).left = NodeRef.internal c := harm
        have hcL : Covers a (NodeRef.internal c) lo v := harm' ▸ hcov.internal_left
        obtain ⟨hg1, hg2⟩ := followInternal_bounds rest c lo v goal hcL hfol'
        have hb : decide (goal > v) = false := decide_eq_false (by omega)
        have hpn1 : (bw.writeBit false).paddingNeeded = rest.length := by
          rw [BW.paddingNeeded_writeBit bw false (by rw [hpn, List.length_cons]; omega), hpn]
          simp
        obtain ⟨node', stack', hrun⟩ :=
          padLoop_ok rest c lo v ((v, .left) :: stack) (bw.writeBit false) hcL hfol' hpn1
        refine ⟨node', stack', ?_⟩
        show padLoop goal (rest.length + 1) a (NodeRef.internal v) stack bw = _
        simp only [padLoop, currentValue, hb, Direction.fromBit_false, go]
        rw [harm]
        rw [if_neg (by simp [NodeRef.isLeaf]),
          if_neg (by rw [hpn, List.length_cons]; omega)]
        exact hrun
      | right =>
        have harm' : (a.nodes v).right = NodeRef.internal c := harm
        have hcR : Covers a (NodeRef.internal c) (v + 1) hi := harm' ▸ hcov.internal_right
        obtain ⟨hg1, hg2⟩ := followInternal_bounds rest c (v + 1) hi goal hcR hfol'
        have hb : decide (goal > v) = true := decide_eq_true (by omega)
        have hpn1 : (bw.writeBit true).paddingNeeded = rest.length := by
          rw [BW.paddingNeeded_writeBit bw true (by rw [hpn, List.length_cons]; omega), hpn]
          simp
        obtain ⟨node', stack', hrun⟩ :=
          padLoop_ok rest c (v + 1) hi ((v, .right) :: stack) (bw.writeBit true) hcR hfol' hpn1
        refine ⟨node', stack', ?_⟩
        show padLoop goal (rest.length + 1) a (NodeRef.internal v) stack bw = _
        simp only [padLoop, currentValue, hb, Direction.fromBit_true, go]
        rw [harm]
        rw [if_neg (by simp [NodeRef.isLeaf]),
          if_neg (by rw [hpn, List.length_cons]; omega)]
        exact hrun

theorem BW.paddingNeeded_le (bw : BW) : bw.paddingNeeded ≤ 7 := by
  simp only [BW.paddingNeeded]
  by_cases h0 : bw.nbits > 0
  · rw [if_pos h0]
    omega
  · rw [if_neg h0]
    omega

theorem BW.paddingNeeded_writeMany :
    ∀ (l : List Bool) (bw : BW), bw.paddingNeeded = l.length →
      (bw.writeMany l).paddingNeeded = 0
  | [], bw, h => h
  | b :: l, bw, h => by
    have h1 : (bw.writeBit b).paddingNeeded = l.length := by
      rw [BW.paddingNeeded_writeBit bw b (by rw [h, List.length_cons]; omega), h]
      simp
    exact BW.paddingNeeded_writeMany l (bw.writeBit b) h1

/-- C2: on any consistent tree wide enough for the byte alphabets, with the
walker at the root and padding needed (`k > 0` bits missing in the last
byte), the end-of-stream padding phase — pick `goal = find_deep_internal(k)`
and take `k` comparison-steps toward it — keeps the walker on internal nodes
at every one of the `k` steps (the not-a-leaf assertion never fires, the loop
succeeds) and fills the byte exactly. -/
theorem padding_never_hits_leaf {max : Nat} {a : Arena} {stack : List Frame} {bw : BW}
    (hcons : a.isConsistentB max = true) (hmax : 128 ≤ max)
    (hpad : 0 < bw.paddingNeeded) :
    ∃ goal node' stack' bw',
      findDeepInternal a (NodeRef.internal a.root) bw.paddingNeeded = .ok goal ∧
      padLoop goal bw.paddingNeeded a (NodeRef.internal a.root) stack bw =
        .ok (node', stack', bw') ∧ bw'.paddingNeeded = 0 := by
  have hcov := (isConsistentB_iff_covers max a).mp hcons
  obtain ⟨goal, hfind, dirs, hlen, hfol⟩ :=
    find_deep_internal_spec hcons (BW.paddingNeeded_le bw) hmax
  obtain ⟨node', stack', hrun⟩ :=
    padLoop_ok dirs a.root 0 max stack bw hcov hfol (by omega)
  rw [hlen] at hrun
  have hzero : (bw.writeMany (dirs.map Direction.toBit)).paddingNeeded = 0 :=
    BW.paddingNeeded_writeMany _ bw (by rw [List.length_map]; omega)
  exact ⟨goal, node', stack', bw.writeMany (dirs.map Direction.toBit), hfind, hrun, hzero⟩

set_option maxRecDepth 10000 in
theorem padding_never_hits_leaf_witness :
    (Arena8.newUniform.isConsistentB 255 = true ∧ 128 ≤ 255 ∧
      0 < BW.paddingNeeded ⟨3, 5, []⟩) ∧
    ∃ goal node' stack' bw',
      findDeepInternal Arena8.newUniform (NodeRef.internal Arena8.newUniform.root)
        (BW.paddingNeeded ⟨3, 5, []⟩) = .ok goal ∧
      padLoop goal (BW.paddingNeeded ⟨3, 5, []⟩) Arena8.newUniform
        (NodeRef.internal Arena8.newUniform.root) [] ⟨3, 5, []⟩ =
        .ok (node', stack', bw') ∧ bw'.paddingNeeded = 0 :=
  ⟨⟨by decide, by decide, by decide⟩,
    @padding_never_hits_leaf 255 Arena8.newUniform [] ⟨3, 5, []⟩
      (by decide) (by decide) (by decide)⟩

/-- `read_bit` either reports a clean end of the source (only when no bits
remain at all) or consumes exactly one bit. -/
theorem BR.readBit_measure (br : BR) :
    (br.nbits = 0 ∧ br.bytes = [] ∧ br.readBit = .error .unexpectedEof) ∨
    (∃ bit br', br.readBit = .ok (bit, br') ∧
      br'.nbits + 8 * br'.bytes.length < br.nbits + 8 * br.bytes.length) := by
  by_cases h0 : br.nbits = 0
  · cases hb : br.bytes with
    | nil =>
      refine Or.inl ⟨h0, rfl, ?_⟩
      simp [BR.readBit, h0, hb]
    | cons b rest =>
      refine Or.inr ⟨(b : Nat).testBit 7, ⟨rest, 7, b * 2 % 256⟩, ?_, ?_⟩
      · simp [BR.readBit, h0, hb]
      · show (7 : Nat) + 8 * rest.length < br.nbits + 8 * (b :: rest).length
        rw [h0]
        simp [List.length_cons]
        omega
  · refine Or.inr ⟨br.buf.testBit 7, ⟨br.bytes, br.nbits - 1, br.buf * 2 % 256⟩, ?_, ?_⟩
    · simp [BR.readBit, h0]
    · simp
      omega

/-- The decoder loop never fails: from any genuine walker state on an
internal node, with fuel exceeding the remaining bit count, it returns `ok`
(end of input is a clean stop, `go` is never called on a leaf, every splay
succeeds). -/
theorem decompressLoop_ok {emit : Nat → List Nat} {max : Nat} :
    ∀ (fuel : Nat) (a : Arena) (v : Nat) (stack : List Frame) (br : BR)
      (out : List Nat) (lo hi : Nat),
      Covers a (NodeRef.internal v) lo hi →
      ChainUp a max (NodeRef.internal v) lo hi stack →
      br.nbits + 8 * br.bytes.length < fuel →
      ∃ out', decompressLoop emit fuel a (NodeRef.internal v) stack br out = .ok out'
  | 0, a, v, stack, br, out, lo, hi, hcov, hchain, hm => absurd hm (by omega)
  | fuel + 1, a, v, stack, br, out, lo, hi, hcov, hchain, hm => by
    rcases BR.readBit_measure br with ⟨h1, h2, heof⟩ | ⟨bit, br', hbit, hless⟩
    · refine ⟨out, ?_⟩
      simp only [decompressLoop]
      rw [heof]
    · have hgo : go a (NodeRef.internal v) stack (Direction.fromBit bit) =
          .ok ((a.nodes v).arm (Direction.fromBit bit),
            (v, Direction.fromBit bit) :: stack) := rfl
      obtain ⟨lo', hi', hcov', hchain'⟩ := go_ok_inv hcov hchain hgo
      cases hc : (a.nodes v).arm (Direction.fromBit bit) with
      | internal w =>
        rw [hc] at hcov' hchain'
        obtain ⟨out', hrec⟩ :=
          decompressLoop_ok fuel a w ((v, Direction.fromBit bit) :: stack) br' out
            lo' hi' hcov' hchain' (by omega)
        refine ⟨out', ?_⟩
        simp only [decompressLoop]
        rw [hbit]
        simp only [go]
        rw [hc]
        rw [if_neg (by simp [NodeRef.isLeaf])]
        exact hrec
      | leaf s =>
        rw [hc] at hcov' hchain'
        obtain ⟨hlo', hhi'⟩ := hcov'.leaf_eq
        subst lo'; subst hi'
        obtain ⟨a2, hspl, hroot, hcov2⟩ := splayParentOfLeaf_ok hchain'
        have hchain2 : ChainUp a2 max (NodeRef.internal v) 0 max ([] : List Frame) :=
          ⟨by rw [hroot], rfl, rfl⟩
        obtain ⟨out', hrec⟩ :=
          decompressLoop_ok fuel a2 v [] br'
            (out ++ emit (currentValue (NodeRef.leaf s))) 0 max hcov2 hchain2 (by omega)
        refine ⟨out', ?_⟩
        simp only [decompressLoop]
        rw [hbit]
        simp only [go]
        rw [hc]
        rw [if_pos (show (NodeRef.leaf s).isLeaf = true from rfl), hspl]
        exact hrec

/-- C9: the byte decoder accepts every input byte string: it always returns
`ok` — the walker splays back to an internal root before each new descent so
`go` is never called on a leaf, end-of-file during a bit read is a normal
stop, and no input content is ever rejected as malformed. -/
theorem decompress8_total (r : List Nat) : ∃ out, decompress8 r = .ok out := by
  have hchain : ChainUp Arena8.newUniform 255
      (NodeRef.internal Arena8.newUniform.root) 0 255 [] := ⟨rfl, rfl, rfl⟩
  obtain ⟨out, h⟩ :=
    decompressLoop_ok (8 * r.length + 1) Arena8.newUniform Arena8.newUniform.root
      [] ⟨r, 0, 0⟩ [] 0 255 uniform8_covers hchain
      (by show 0 + 8 * r.length < 8 * r.length + 1; omega)
  exact ⟨out, h⟩

theorem testBit_double_add (buf c k : Nat) (hc : c < 2) :
    (buf * 2 + c).testBit (k + 1) = buf.testBit k := by
  rw [Nat.testBit_to_div_mod, Nat.testBit_to_div_mod]
  have h1 : (buf * 2 + c) / 2 ^ (k + 1) = buf / 2 ^ k := by
    rw [pow_succ', ← Nat.div_div_eq_div_mul]
    congr 1
    omega
  rw [h1]

theorem lowBits_snoc (n buf : Nat) (b : Bool) :
    lowBits (n + 1) (buf * 2 + (if b then 1 else 0)) = lowBits n buf ++ [b] := by
  unfold lowBits
  rw [List.range_succ, List.map_append, List.map_singleton]
  congr 1
  · apply List.map_congr_left
    intro j hj
    rw [List.mem_range] at hj
    rw [show n + 1 - 1 - j = (n - 1 - j) + 1 from by omega]
    exact testBit_double_add buf _ _ (by cases b <;> simp)
  · rw [show n + 1 - 1 - n = 0 from by omega]
    cases b <;> simp [Nat.testBit_to_div_mod] <;> omega

/-- One `write_bit` appends exactly one bit to the accepted bit stream and
keeps the writer well formed. -/
theorem BW.writeBit_bits (bw : BW) (b : Bool) (hwf : bw.wfInv) :
    (bw.writeBit b).bits = bw.bits ++ [b] ∧ (bw.writeBit b).wfInv := by
  obtain ⟨h7, hbuf⟩ := hwf
  have hp : (2 : Nat) ^ bw.nbits ≤ 2 ^ 7 := Nat.pow_le_pow_right (by norm_num) h7
  have hmod : bw.buf * 2 % 256 = bw.buf * 2 := Nat.mod_eq_of_lt (by norm_num at hp; omega)
  by_cases h8 : bw.nbits + 1 = 8
  · have hw : bw.writeBit b =
        ⟨0, 0, bw.out ++ [bw.buf * 2 + (if b then 1 else 0)]⟩ := by
      cases b <;> simp [BW.writeBit, h8, hmod]
    rw [hw]
    constructor
    · show (bw.out ++ [bw.buf * 2 + (if b then 1 else 0)]).flatMap byteBits ++
        lowBits 0 0 = bw.bits ++ [b]
      rw [List.flatMap_append]
      simp only [List.flatMap_cons, List.flatMap_nil, List.append_nil]
      show bw.out.flatMap byteBits ++ byteBits (bw.buf * 2 + (if b then 1 else 0)) ++ [] =
        bw.bits ++ [b]
      rw [List.append_nil]
      have h7eq : bw.nbits = 7 := by omega
      show bw.out.flatMap byteBits ++ lowBits 8 (bw.buf * 2 + (if b then 1 else 0)) =
        bw.bits ++ [b]
      rw [show (8 : Nat) = 7 + 1 from rfl, lowBits_snoc 7 bw.buf b]
      show _ = bw.out.flatMap byteBits ++ lowBits bw.nbits bw.buf ++ [b]
      rw [h7eq, List.append_assoc]
    · exact ⟨by norm_num, by norm_num⟩
  · have hw : bw.writeBit b =
        ⟨bw.nbits + 1, bw.buf * 2 + (if b then 1 else 0), bw.out⟩ := by
      cases b <;> simp [BW.writeBit, h8, hmod]
    rw [hw]
    constructor
    · show bw.out.flatMap byteBits ++ lowBits (bw.nbits + 1) (bw.buf * 2 + (if b then 1 else 0)) =
        bw.bits ++ [b]
      rw [lowBits_snoc bw.nbits bw.buf b]
      show _ = bw.out.flatMap byteBits ++ lowBits bw.nbits bw.buf ++ [b]
      rw [List.append_assoc]
    · refine ⟨by show bw.nbits + 1 ≤ 7; omega, ?_⟩
      show bw.buf * 2 + (if b then 1 else 0) < 2 ^ (bw.nbits + 1)
      have : (2 : Nat) ^ (bw.nbits + 1) = 2 * 2 ^ bw.nbits := by ring
      cases b <;> simp <;> omega

/-- `write_bit` iterated over a list of bits. -/
theorem BW.writeMany_bits :
    ∀ (l : List Bool) (bw : BW), bw.wfInv →
      (bw.writeMany l).bits = bw.bits ++ l ∧ (bw.writeMany l).wfInv
  | [], bw, hwf => ⟨by simp [BW.writeMany], hwf⟩
  | b :: l, bw, hwf => by
    obtain ⟨h1, h2⟩ := BW.writeBit_bits bw b hwf
    obtain ⟨h3, h4⟩ := BW.writeMany_bits l (bw.writeBit b) h2
    refine ⟨?_, h4⟩
    show (BW.writeMany (bw.writeBit b) l).bits = _
    rw [h3, h1, List.append_assoc]
    rfl

theorem BW.init_wf : BW.init.wfInv := ⟨by decide, by decide⟩

theorem BW.init_bits : BW.init.bits = [] := rfl

theorem BW.nbits_zero_of (bw : BW) (hwf : bw.wfInv) (hpn : bw.paddingNeeded = 0) :
    bw.nbits = 0 := by
  obtain ⟨h7, _⟩ := hwf
  simp only [BW.paddingNeeded] at hpn
  by_cases h0 : bw.nbits > 0
  · rw [if_pos h0] at hpn
    omega
  · omega

theorem BW.flush_of_nbits_zero (bw : BW) (h0 : bw.nbits = 0) :
    bw.flush = .ok bw.out ∧ bw.bits = bw.out.flatMap byteBits := by
  constructor
  · simp [BW.flush, h0]
  · show bw.out.flatMap byteBits ++ lowBits bw.nbits bw.buf = _
    rw [h0]
    simp [lowBits]

theorem byteBits_eq_bufBits (b : Nat) : byteBits b = bufBits 8 b := by
  unfold byteBits lowBits bufBits
  apply List.map_congr_left
  intro j hj
  norm_num

theorem bufBits_succ (n buf : Nat) (h : n ≤ 7) :
    bufBits (n + 1) buf = buf.testBit 7 :: bufBits n (buf * 2 % 256) := by
  unfold bufBits
  rw [List.range_succ_eq_map, List.map_cons, List.map_map]
  congr 1
  apply List.map_congr_left
  intro j hj
  rw [List.mem_range] at hj
  show buf.testBit (7 - (j + 1)) = (buf * 2 % 256).testBit (7 - j)
  rw [show (256 : Nat) = 2 ^ 8 from by norm_num, Nat.testBit_mod_two_pow]
  rw [show (7 : Nat) - j = (6 - j) + 1 from by omega]
  rw [show buf * 2 = buf * 2 + 0 from by omega, testBit_double_add buf 0 (6 - j) (by norm_num)]
  rw [show (7 : Nat) - (j + 1) = 6 - j from by omega]
  simp
  omega

/-- A successful `read_bit` pops exactly the head bit of the remaining bit
stream. -/
theorem BR.readBit_ok_bits {br : BR} {bit : Bool} {br' : BR}
    (hwf : br.nbits ≤ 8) (h : br.readBit = .ok (bit, br')) :
    br.bits = bit :: br'.bits ∧ br'.nbits ≤ 8 := by
  by_cases h0 : br.nbits = 0
  · cases hb : br.bytes with
    | nil => simp [BR.readBit, h0, hb] at h
    | cons b rest =>
      have hr : br.readBit = .ok ((b : Nat).testBit 7, ⟨rest, 8 - 1, b * 2 % 256⟩) := by
        simp [BR.readBit, h0, hb]
      rw [hr] at h
      simp only [Except.ok.injEq, Prod.mk.injEq] at h
      obtain ⟨hbit, hbr⟩ := h
      subst bit; subst br'
      refine ⟨?_, by norm_num⟩
      show bufBits br.nbits br.buf ++ br.bytes.flatMap byteBits =
        (b : Nat).testBit 7 :: (bufBits (8 - 1) (b * 2 % 256) ++ rest.flatMap byteBits)
      rw [h0, hb]
      show bufBits 0 br.buf ++ (byteBits b ++ rest.flatMap byteBits) = _
      rw [show bufBits 0 br.buf = [] from rfl, List.nil_append, byteBits_eq_bufBits,
        show (8 : Nat) = 7 + 1 from rfl, bufBits_succ 7 b (by norm_num)]
      rfl
  · have hr : br.readBit = .ok (br.buf.testBit 7, ⟨br.bytes, br.nbits - 1, br.buf * 2 % 256⟩) := by
      simp [BR.readBit, h0]
    rw [hr] at h
    simp only [Except.ok.injEq, Prod.mk.injEq] at h
    obtain ⟨hbit, hbr⟩ := h
    subst bit; subst br'
    refine ⟨?_, by show br.nbits - 1 ≤ 8; omega⟩
    show bufBits br.nbits br.buf ++ br.bytes.flatMap byteBits =
      br.buf.testBit 7 :: (bufBits (br.nbits - 1) (br.buf * 2 % 256) ++ br.bytes.flatMap byteBits)
    obtain ⟨m, hm⟩ : ∃ m, br.nbits = m + 1 := ⟨br.nbits - 1, by omega⟩
    rw [hm, bufBits_succ m br.buf (by omega)]
    rw [show m + 1 - 1 = m from by omega]
    rfl

/-- Bits that keep the walker strictly on internal nodes are absorbed by the
decoder without emitting anything. -/
theorem decodeBits_absorb {emit : Nat → List Nat} {a : Arena} :
    ∀ (bits : List Bool) (v : Nat) (stack : List Frame) (out : List Nat),
      staysInternal a v bits = true →
      decodeBits emit a (NodeRef.internal v) stack bits out = .ok out
  | [], v, stack, out, h => rfl
  | b :: bits, v, stack, out, h => by
    simp only [staysInternal] at h
    cases hc : (a.nodes v).arm (Direction.fromBit b) with
    | leaf w =>
      rw [hc] at h
      simp at h
    | internal c =>
      rw [hc] at h
      have h' : staysInternal a c bits = true := h
      simp only [decodeBits, go]
      rw [hc]
      rw [if_neg (by simp [NodeRef.isLeaf])]
      exact decodeBits_absorb bits c ((v, Direction.fromBit b) :: stack) out h'

/-- The padding bits the encoder actually emits stay internal. -/
theorem staysInternal_of_follow {a : Arena} :
    ∀ (dirs : List Direction) (v goal : Nat),
      followInternal a v dirs = some goal →
      staysInternal a v (dirs.map Direction.toBit) = true
  | [], v, goal, h => rfl
  | d :: rest, v, goal, h => by
    simp only [followInternal] at h
    cases hc : (a.nodes v).arm d with
    | leaf w =>
      rw [hc] at h
      simp at h
    | internal c =>
      rw [hc] at h
      have h' : followInternal a c rest = some goal := h
      simp only [List.map_cons, staysInternal]
      rw [Direction.fromBit_toBit d, hc]
      exact staysInternal_of_follow rest c goal h'

/-- The decoder consumes one full descent path exactly as the encoder's
walker took it: ending at the leaf, it emits that symbol and continues from
the splayed tree. -/
theorem decodeBits_follow {emit : Nat → List Nat} :
    ∀ (path : List Bool) (a : Arena) (node : NodeRef) (stack stack1 : List Frame)
      (s : Nat) (a2 : Arena) (p : Nat) (rest : List Bool) (out : List Nat),
      path ≠ [] →
      goSeq a node stack (path.map Direction.fromBit) = .ok (NodeRef.leaf s, stack1) →
      splayParentOfLeaf a (NodeRef.leaf s) stack1 = .ok (a2, NodeRef.internal p, []) →
      decodeBits emit a node stack (path ++ rest) out =
        decodeBits emit a2 (NodeRef.internal p) [] rest (out ++ emit s)
  | [], _, _, _, _, _, _, _, _, _, hne, _, _ => absurd rfl hne
  | b :: path', a, node, stack, stack1, s, a2, p, rest, out, hne, hseq, hspl => by
    cases node with
    | leaf t => simp [goSeq, go] at hseq
    | internal v =>
      simp only [List.map_cons, goSeq, go] at hseq
      cases path' with
      | nil =>
        simp only [List.map_nil, goSeq, Except.ok.injEq, Prod.mk.injEq] at hseq
        obtain ⟨h1, h2⟩ := hseq
        subst stack1
        show decodeBits emit a (NodeRef.internal v) stack (b :: ([] ++ rest)) out = _
        simp only [decodeBits, go, List.nil_append]
        rw [h1]
        rw [if_pos (show (NodeRef.leaf s).isLeaf = true from rfl), hspl]
        rfl
      | cons b2 path'' =>
        cases hc : (a.nodes v).arm (Direction.fromBit b) with
        | leaf t =>
          rw [hc] at hseq
          simp [goSeq, go] at hseq
        | internal c =>
          rw [hc] at hseq
          show decodeBits emit a (NodeRef.internal v) stack
            (b :: ((b2 :: path'') ++ rest)) out = _
          simp only [decodeBits, go]
          rw [hc]
          rw [if_neg (by simp [NodeRef.isLeaf])]
          exact decodeBits_follow (b2 :: path'') a (NodeRef.internal c)
            ((v, Direction.fromBit b) :: stack) stack1 s a2 p rest out (by simp) hseq hspl

/-- A run of the fueled decoder loop equals the run of the abstract
bit-list decoder whenever the latter succeeds. -/
theorem decompressLoop_of_decodeBits {emit : Nat → List Nat} {max : Nat} :
    ∀ (fuel : Nat) (a : Arena) (v : Nat) (stack : List Frame) (br : BR)
      (out res : List Nat) (lo hi : Nat),
      Covers a (NodeRef.internal v) lo hi →
      ChainUp a max (NodeRef.internal v) lo hi stack →
      br.nbits ≤ 8 →
      br.nbits + 8 * br.bytes.length < fuel →
      decodeBits emit a (NodeRef.internal v) stack br.bits out = .ok res →
      decompressLoop emit fuel a (NodeRef.internal v) stack br out = .ok res
  | 0, a, v, stack, br, out, res, lo, hi, hcov, hchain, hwf, hm, hdec => absurd hm (by omega)
  | fuel + 1, a, v, stack, br, out, res, lo, hi, hcov, hchain, hwf, hm, hdec => by
    rcases BR.readBit_measure br with ⟨h1, h2, heof⟩ | ⟨bit, br', hbit, hless⟩
    · have hnil : br.bits = [] := by
        unfold BR.bits
        rw [h1, h2]
        rfl
      rw [hnil] at hdec
      simp only [decodeBits, Except.ok.injEq] at hdec
      subst res
      simp only [decompressLoop]
      rw [heof]
    · obtain ⟨hbits, hwf'⟩ := BR.readBit_ok_bits hwf hbit
      rw [hbits] at hdec
      have hgo : go a (NodeRef.internal v) stack (Direction.fromBit bit) =
          .ok ((a.nodes v).arm (Direction.fromBit bit),
            (v, Direction.fromBit bit) :: stack) := rfl
      obtain ⟨lo', hi', hcov', hchain'⟩ := go_ok_inv hcov hchain hgo
      cases hc : (a.nodes v).arm (Direction.fromBit bit) with
      | internal w =>
        rw [hc] at hcov' hchain'
        simp only [decodeBits, go] at hdec
        rw [hc] at hdec
        rw [if_neg (by simp [NodeRef.isLeaf])] at hdec
        have hrec := decompressLoop_of_decodeBits fuel a w
          ((v, Direction.fromBit bit) :: stack) br' out res lo' hi'
          hcov' hchain' hwf' (by omega) hdec
        simp only [decompressLoop]
        rw [hbit]
        simp only [go]
        rw [hc, if_neg (by simp [NodeRef.isLeaf])]
        exact hrec
      | leaf s =>
        rw [hc] at hcov' hchain'
        obtain ⟨hlo', hhi'⟩ := hcov'.leaf_eq
        subst lo'; subst hi'
        obtain ⟨a2, hspl, hroot, hcov2⟩ := splayParentOfLeaf_ok hchain'
        have hchain2 : ChainUp a2 max (NodeRef.internal v) 0 max ([] : List Frame) :=
          ⟨by rw [hroot], rfl, rfl⟩
        simp only [decodeBits, go] at hdec
        rw [hc] at hdec
        rw [if_pos (show (NodeRef.leaf s).isLeaf = true from rfl), hspl] at hdec
        have hrec := decompressLoop_of_decodeBits fuel a2 v [] br'
          (out ++ emit (currentValue (NodeRef.leaf s))) res 0 max
          hcov2 hchain2 hwf' (by omega) hdec
        simp only [decompressLoop]
        rw [hbit]
        simp only [go]
        rw [hc, if_pos (show (NodeRef.leaf s).isLeaf = true from rfl), hspl]
        exact hrec

/-- The encoder's per-symbol loop simulated against the abstract decoder:
it succeeds, returns to an internal root with an empty stack, keeps the bit
writer well formed, and the bits it appends decode — on the same starting
tree — exactly to the bytes it consumed, leaving the decoder in the
encoder's final tree. -/
theorem compressLoop_sim {rd : List Nat → Except Err (Option (Nat × List Nat))}
    {emit : Nat → List Nat} {P : List Nat → Prop} {max dFuel : Nat}
    (hstep : ∀ r, P r →
      (∃ s r', rd r = .ok (some (s, r')) ∧ P r' ∧ s ≤ max ∧
        emit s ++ r' = r ∧ r'.length < r.length) ∨
      (rd r = .ok none ∧ r = []))
    (hd : max < dFuel) :
    ∀ (fuel : Nat) (r : List Nat) (a : Arena) (bw : BW),
      P r → Covers a (NodeRef.internal a.root) 0 max → bw.wfInv →
      r.length < fuel →
      ∃ a' bw' delta,
        compressLoop rd dFuel fuel r a (NodeRef.internal a.root) [] bw =
          .ok (a', NodeRef.internal a'.root, [], bw') ∧
        Covers a' (NodeRef.internal a'.root) 0 max ∧ bw'.wfInv ∧
        bw'.bits = bw.bits ++ delta ∧
        ∀ (rest : List Bool) (out : List Nat),
          decodeBits emit a (NodeRef.internal a.root) [] (delta ++ rest) out =
            decodeBits emit a' (NodeRef.internal a'.root) [] rest (out ++ r)
  | 0, r, a, bw, hP, hcov, hwf, hf => absurd hf (by omega)
  | fuel + 1, r, a, bw, hP, hcov, hwf, hf => by
    rcases hstep r hP with ⟨s, r', hrd, hP', hs, hemit, hlen⟩ | ⟨hrd, hrnil⟩
    case inr =>
      subst r
      refine ⟨a, bw, [], ?_, hcov, hwf, by simp, ?_⟩
      · simp only [compressLoop, hrd]
      · intro rest out
        rw [List.nil_append, List.append_nil]
    case inl =>
      obtain ⟨stack1, hdesc, hgseq⟩ :=
        descendLoop_spec dFuel (NodeRef.internal a.root) [] bw 0 max hcov
          (by omega) hs (by omega)
      have hchain0 : ChainUp a max (NodeRef.internal a.root) 0 max ([] : List Frame) :=
        ⟨rfl, rfl, rfl⟩
      obtain ⟨lo', hi', hcovL, hchainL⟩ :=
        goSeq_inv ((dirPath a s dFuel (NodeRef.internal a.root)).map Direction.fromBit)
          (NodeRef.internal a.root) [] 0 max (NodeRef.leaf s) stack1 hcov hchain0 hgseq
      obtain ⟨hlo', hhi'⟩ := hcovL.leaf_eq
      subst lo'; subst hi'
      rcases stack1 with _ | ⟨⟨p, pd⟩, rest1⟩
      · obtain ⟨habs, _, _⟩ := hchainL
        exact NodeRef.noConfusion habs
      · obtain ⟨a2, hspl, hroot2, hcov2⟩ := splayParentOfLeaf_ok hchainL
        have hp : p = a2.root := hroot2.symm
        subst p
        have hcov2' : Covers a2 (NodeRef.internal a2.root) 0 max := hcov2
        obtain ⟨hbw1, hwf1⟩ :=
          BW.writeMany_bits (dirPath a s dFuel (NodeRef.internal a.root)) bw hwf
        obtain ⟨a', bw', delta', hloop, hcov', hwf', hbits', hdec'⟩ :=
          compressLoop_sim hstep hd fuel r' a2
            (bw.writeMany (dirPath a s dFuel (NodeRef.internal a.root)))
            hP' hcov2' hwf1 (by omega)
        refine ⟨a', bw', dirPath a s dFuel (NodeRef.internal a.root) ++ delta',
          ?_, hcov', hwf', ?_, ?_⟩
        · simp only [compressLoop, hrd]
          simp only [hdesc]
          simp only [hspl]
          exact hloop
        · rw [hbits', hbw1, List.append_assoc]
        · intro rest out
          rw [List.append_assoc]
          have hpathne : dirPath a s dFuel (NodeRef.internal a.root) ≠ [] := by
            obtain ⟨df, hdf⟩ : ∃ df, dFuel = df + 1 := ⟨dFuel - 1, by omega⟩
            rw [hdf]
            simp [dirPath]
          rw [decodeBits_follow (dirPath a s dFuel (NodeRef.internal a.root)) a
            (NodeRef.internal a.root) [] ((a2.root, pd) :: rest1) s a2 a2.root
            (delta' ++ rest) out hpathne hgseq hspl]
          rw [hdec' rest (out ++ emit s)]
          rw [List.append_assoc, hemit]

/-- The 8-bit symbol reader consumes one byte; its inverse is `write_one`. -/
theorem readOne8_step : ∀ r, (∀ b, b ∈ r → b < 256) →
    (∃ s r', readOne8 r = .ok (some (s, r')) ∧ (∀ b, b ∈ r' → b < 256) ∧ s ≤ 255 ∧
      writeOne8 s ++ r' = r ∧ r'.length < r.length) ∨
    (readOne8 r = .ok none ∧ r = []) := by
  intro r hP
  cases r with
  | nil => exact Or.inr ⟨rfl, rfl⟩
  | cons b rest =>
    refine Or.inl ⟨b, rest, rfl, ?_, ?_, rfl, by simp⟩
    · intro y hy
      exact hP y (List.mem_cons_of_mem b hy)
    · have := hP b (List.mem_cons_self b rest)
      omega

/-- The big-endian 16-bit reader consumes two bytes on even-length
byte-valued inputs; its inverse is `write_one` (`to_be_bytes`). -/
theorem readOne16BE_step : ∀ r, (2 ∣ r.length ∧ ∀ b, b ∈ r → b < 256) →
    (∃ s r', readOne16BE r = .ok (some (s, r')) ∧
      (2 ∣ r'.length ∧ ∀ b, b ∈ r' → b < 256) ∧ s ≤ 65535 ∧
      writeOne16BE s ++ r' = r ∧ r'.length < r.length) ∨
    (readOne16BE r = .ok none ∧ r = []) := by
  intro r hP
  obtain ⟨heven, hby⟩ := hP
  match r with
  | [] => exact Or.inr ⟨rfl, rfl⟩
  | [b1] => exact absurd heven (by rw [List.length_singleton]; omega)
  | b1 :: b2 :: rest =>
    have h1 : b1 < 256 := hby b1 (by simp)
    have h2 : b2 < 256 := hby b2 (by simp)
    refine Or.inl ⟨b1 * 256 + b2, rest, rfl, ⟨?_, ?_⟩, ?_, ?_,
      by simp only [List.length_cons]; omega⟩
    · simp only [List.length_cons] at heven
      omega
    · intro y hy
      exact hby y (by simp [hy])
    · have hm : b1 * 256 ≤ 255 * 256 := Nat.mul_le_mul_right 256 (by omega)
      omega
    · have e1 : (b1 * 256 + b2) / 256 = b1 := by omega
      have e2 : (b1 * 256 + b2) % 256 = b2 := by omega
      simp [writeOne16BE, e1, e2]

/-- The little-endian 16-bit reader, mirror of the big-endian one. -/
theorem readOne16LE_step : ∀ r, (2 ∣ r.length ∧ ∀ b, b ∈ r → b < 256) →
    (∃ s r', readOne16LE r = .ok (some (s, r')) ∧
      (2 ∣ r'.length ∧ ∀ b, b ∈ r' → b < 256) ∧ s ≤ 65535 ∧
      writeOne16LE s ++ r' = r ∧ r'.length < r.length) ∨
    (readOne16LE r = .ok none ∧ r = []) := by
  intro r hP
  obtain ⟨heven, hby⟩ := hP
  match r with
  | [] => exact Or.inr ⟨rfl, rfl⟩
  | [b1] => exact absurd heven (by rw [List.length_singleton]; omega)
  | b1 :: b2 :: rest =>
    have h1 : b1 < 256 := hby b1 (by simp)
    have h2 : b2 < 256 := hby b2 (by simp)
    refine Or.inl ⟨b2 * 256 + b1, rest, rfl, ⟨?_, ?_⟩, ?_, ?_,
      by simp only [List.length_cons]; omega⟩
    · simp only [List.length_cons] at heven
      omega
    · intro y hy
      exact hby y (by simp [hy])
    · have hm : b2 * 256 ≤ 255 * 256 := Nat.mul_le_mul_right 256 (by omega)
      omega
    · have e1 : (b2 * 256 + b1) % 256 = b1 := by omega
      have e2 : (b2 * 256 + b1) / 256 = b2 := by omega
      simp [writeOne16LE, e1, e2]

/-- Full raw round trip, generic in the symbol flavor: compression succeeds
and decompressing its output returns the input, provided the reader/writer
pair is inverse on inputs satisfying `P`. -/
theorem roundtripRaw {rd : List Nat → Except Err (Option (Nat × List Nat))}
    {emit : Nat → List Nat} {P : List Nat → Prop} {max dFuel : Nat} {a₀ : Arena}
    (hstep : ∀ r, P r →
      (∃ s r', rd r = .ok (some (s, r')) ∧ P r' ∧ s ≤ max ∧
        emit s ++ r' = r ∧ r'.length < r.length) ∨
      (rd r = .ok none ∧ r = []))
    (hd : max < dFuel) (hmax : 128 ≤ max)
    (hcov0 : Covers a₀ (NodeRef.internal a₀.root) 0 max)
    {r : List Nat} (hP : P r) :
    ∃ y, compressRaw rd dFuel a₀ r = .ok y ∧ decompressRaw emit a₀ y = .ok r := by
  obtain ⟨a', bw', delta, hloop, hcov', hwf', hbits, hdec⟩ :=
    compressLoop_sim hstep hd (r.length + 1) r a₀ BW.init hP hcov0 BW.init_wf (by omega)
  have hchain0 : ChainUp a₀ max (NodeRef.internal a₀.root) 0 max ([] : List Frame) :=
    ⟨rfl, rfl, rfl⟩
  have hbits0 : bw'.bits = delta := by rw [hbits, BW.init_bits, List.nil_append]
  by_cases hpad : bw'.paddingNeeded > 0
  · obtain ⟨goal, hfind, dirs, hlendirs, hfol⟩ :=
      find_deep_internal_spec ((isConsistentB_iff_covers max a').mpr hcov')
        (BW.paddingNeeded_le bw') hmax
    obtain ⟨nodeP, stackP, hpadrun⟩ :=
      padLoop_ok dirs a'.root 0 max [] bw' hcov' hfol hlendirs.symm
    rw [hlendirs] at hpadrun
    obtain ⟨hbits2, hwf2⟩ := BW.writeMany_bits (dirs.map Direction.toBit) bw' hwf'
    have hpn2 : (bw'.writeMany (dirs.map Direction.toBit)).paddingNeeded = 0 :=
      BW.paddingNeeded_writeMany _ bw' (by rw [List.length_map, hlendirs])
    have hn0 := BW.nbits_zero_of _ hwf2 hpn2
    obtain ⟨hflush, hbytes⟩ := BW.flush_of_nbits_zero _ hn0
    refine ⟨(bw'.writeMany (dirs.map Direction.toBit)).out, ?_, ?_⟩
    · simp only [compressRaw, hloop]
      rw [if_pos hpad]
      simp only [hfind]
      simp only [hpadrun]
      rw [if_neg (by omega)]
      exact hflush
    · show decompressLoop emit
        (8 * (bw'.writeMany (dirs.map Direction.toBit)).out.length + 1) a₀
        (NodeRef.internal a₀.root) []
        ⟨(bw'.writeMany (dirs.map Direction.toBit)).out, 0, 0⟩ [] = .ok r
      apply decompressLoop_of_decodeBits _ a₀ a₀.root []
        ⟨(bw'.writeMany (dirs.map Direction.toBit)).out, 0, 0⟩ [] r 0 max
        hcov0 hchain0 (by show (0 : Nat) ≤ 8; omega)
        (by show 0 + 8 * (bw'.writeMany (dirs.map Direction.toBit)).out.length <
          8 * (bw'.writeMany (dirs.map Direction.toBit)).out.length + 1; omega)
      show decodeBits emit a₀ (NodeRef.internal a₀.root) []
        (bufBits 0 0 ++ (bw'.writeMany (dirs.map Direction.toBit)).out.flatMap byteBits)
        [] = .ok r
      rw [show bufBits 0 0 = [] from rfl, List.nil_append, ← hbytes, hbits2, hbits0]
      rw [hdec (dirs.map Direction.toBit) []]
      rw [List.nil_append]
      exact decodeBits_absorb (dirs.map Direction.toBit) a'.root [] r
        (staysInternal_of_follow dirs a'.root goal hfol)
  · have hpn0 : bw'.paddingNeeded = 0 := by omega
    have hn0 := BW.nbits_zero_of _ hwf' hpn0
    obtain ⟨hflush, hbytes⟩ := BW.flush_of_nbits_zero _ hn0
    refine ⟨bw'.out, ?_, ?_⟩
    · simp only [compressRaw, hloop]
      rw [if_neg (by omega)]
      exact hflush
    · show decompressLoop emit (8 * bw'.out.length + 1) a₀
        (NodeRef.internal a₀.root) [] ⟨bw'.out, 0, 0⟩ [] = .ok r
      apply decompressLoop_of_decodeBits _ a₀ a₀.root [] ⟨bw'.out, 0, 0⟩ [] r 0 max
        hcov0 hchain0 (by show (0 : Nat) ≤ 8; omega)
        (by show 0 + 8 * bw'.out.length < 8 * bw'.out.length + 1; omega)
      show decodeBits emit a₀ (NodeRef.internal a₀.root) []
        (bufBits 0 0 ++ bw'.out.flatMap byteBits) [] = .ok r
      rw [show bufBits 0 0 = [] from rfl, List.nil_append, ← hbytes, hbits0]
      have h := hdec [] []
      rw [List.append_nil] at h
      rw [h, List.nil_append]
      rfl

/-- C1 (corrected): the round-trip law `decompress(f, compress(f, x)) = x`
holds for the 8-bit flavor on every byte string, and for the two 16-bit
flavors on every even-length byte string.  (On odd-length inputs the 16-bit
encoders fail with `UnexpectedEof` instead of round-tripping, so the
unrestricted claim is false; see `compress16_odd_input_fails`.) -/
theorem roundtrip_corrected {x : List Nat} (hb : ∀ b, b ∈ x → b < 256) :
    (∃ y, compress8 x = .ok y ∧ decompress8 y = .ok x) ∧
    (2 ∣ x.length →
      (∃ y, compress16be x = .ok y ∧ decompress16be y = .ok x) ∧
      (∃ y, compress16le x = .ok y ∧ decompress16le y = .ok x)) := by
  refine ⟨?_, fun heven => ⟨?_, ?_⟩⟩
  · exact @roundtripRaw readOne8 writeOne8 (fun r => ∀ b, b ∈ r → b < 256) 255 256
      Arena8.newUniform readOne8_step (by norm_num) (by norm_num) uniform8_covers x hb
  · exact @roundtripRaw readOne16BE writeOne16BE
      (fun r => 2 ∣ r.length ∧ ∀ b, b ∈ r → b < 256) 65535 65536
      Arena16.newUniform readOne16BE_step (by norm_num) (by norm_num) uniform16_covers
      x ⟨heven, hb⟩
  · exact @roundtripRaw readOne16LE writeOne16LE
      (fun r => 2 ∣ r.length ∧ ∀ b, b ∈ r → b < 256) 65535 65536
      Arena16.newUniform readOne16LE_step (by norm_num) (by norm_num) uniform16_covers
      x ⟨heven, hb⟩

theorem roundtrip_corrected_witness :
    (∀ b, b ∈ ([72] : List Nat) → b < 256) ∧
    ((∃ y, compress8 [72] = .ok y ∧ decompress8 y = .ok [72]) ∧
      (2 ∣ ([72] : List Nat).length →
        (∃ y, compress16be [72] = .ok y ∧ decompress16be y = .ok [72]) ∧
        (∃ y, compress16le [72] = .ok y ∧ decompress16le y = .ok [72]))) :=
  ⟨by decide, roundtrip_corrected (by decide)⟩

/-- The counterexample to the unamended C1 claim: a single odd byte cannot
be compressed by either 16-bit flavor — `read_one` hits `UnexpectedEof`
mid-symbol and `compress` fails, so `decompress(f, compress(f, x)) = x`
cannot hold for `f ∈ {Symbol16BE, Symbol16LE}`, `x = [0x48]`. -/
theorem compress16_odd_input_fails :
    compress16be [72] = .error .unexpectedEof ∧
    compress16le [72] = .error .unexpectedEof :=
  ⟨rfl, rfl⟩

/-- C6: after the encoder's symbol loop on any byte string, when `k > 0`
padding bits are needed, writing ANY `k`-bit pattern that keeps the walker on
internal nodes of the final tree — precisely the patterns the encoder could
have produced as padding — and flushing yields a byte stream (the real
compressed output with the low `k` bits of its last byte replaced by that
pattern) that still decompresses to the original plaintext. -/
theorem padding_ambiguity {x : List Nat} (hb : ∀ b, b ∈ x → b < 256)
    {a1 : Arena} {node1 : NodeRef} {stack1 : List Frame} {bw1 : BW}
    (hcomp : compressLoop readOne8 256 (x.length + 1) x Arena8.newUniform
      (NodeRef.internal Arena8.newUniform.root) [] BW.init =
      .ok (a1, node1, stack1, bw1))
    (hk : 0 < bw1.paddingNeeded)
    {altBits : List Bool} (hlen : altBits.length = bw1.paddingNeeded)
    (hstays : staysInternal a1 a1.root altBits = true) :
    ∃ y, (bw1.writeMany altBits).flush = .ok y ∧ decompress8 y = .ok x := by
  obtain ⟨a', bw', delta, hloop, hcov', hwf', hbits, hdec⟩ :=
    @compressLoop_sim readOne8 writeOne8 (fun r => ∀ b, b ∈ r → b < 256) 255 256
      readOne8_step (by norm_num) (x.length + 1) x Arena8.newUniform BW.init
      hb uniform8_covers BW.init_wf (by omega)
  rw [hloop] at hcomp
  simp only [Except.ok.injEq, Prod.mk.injEq] at hcomp
  obtain ⟨ha1, hnode1, hstack1, hbw1⟩ := hcomp
  subst a1
  subst bw1
  obtain ⟨hbits2, hwf2⟩ := BW.writeMany_bits altBits bw' hwf'
  have hpn2 : (bw'.writeMany altBits).paddingNeeded = 0 :=
    BW.paddingNeeded_writeMany altBits bw' hlen.symm
  have hn0 := BW.nbits_zero_of _ hwf2 hpn2
  obtain ⟨hflush, hbytes⟩ := BW.flush_of_nbits_zero _ hn0
  have hchain0 : ChainUp Arena8.newUniform 255
      (NodeRef.internal Arena8.newUniform.root) 0 255 ([] : List Frame) :=
    ⟨rfl, rfl, rfl⟩
  refine ⟨(bw'.writeMany altBits).out, hflush, ?_⟩
  show decompressLoop writeOne8 (8 * (bw'.writeMany altBits).out.length + 1)
    Arena8.newUniform (NodeRef.internal Arena8.newUniform.root) []
    ⟨(bw'.writeMany altBits).out, 0, 0⟩ [] = .ok x
  apply decompressLoop_of_decodeBits _ Arena8.newUniform Arena8.newUniform.root []
    ⟨(bw'.writeMany altBits).out, 0, 0⟩ [] x 0 255
    uniform8_covers hchain0 (by show (0 : Nat) ≤ 8; omega)
    (by show 0 + 8 * (bw'.writeMany altBits).out.length <
      8 * (bw'.writeMany altBits).out.length + 1; omega)
  show decodeBits writeOne8 Arena8.newUniform
    (NodeRef.internal Arena8.newUniform.root) []
    (bufBits 0 0 ++ (bw'.writeMany altBits).out.flatMap byteBits) [] = .ok x
  rw [show bufBits 0 0 = [] from rfl, List.nil_append, ← hbytes, hbits2, hbits,
    BW.init_bits, List.nil_append]
  rw [hdec altBits []]
  rw [List.nil_append]
  exact decodeBits_absorb altBits a'.root [] x hstays

set_option maxRecDepth 10000 in
theorem padding_ambiguity_witness :
    ∃ y, (BW.writeMany ⟨3, 3, [72]⟩ [true, true, true, true, true]).flush = .ok y ∧
      decompress8 y = .ok [72, 72] :=
  @padding_ambiguity [72, 72] (by decide) _ _ _ ⟨3, 3, [72]⟩ rfl (by decide)
    [true, true, true, true, true] (by decide) (by decide)

set_option maxRecDepth 4000 in
/-- C7: every index `i` of the freshly constructed canonical `Arena8` arena
has, with `L` the count of trailing one bits of `i`: for `L = 0` the two
leaves `i` and `i+1`; otherwise the internal children `i - 2^(L-1)` (i.e. `i`
with bit `L-1` cleared) and `i - 2^(L-1) + 2^L` (that value with bit `L`
set); and the root index is 127. -/
theorem uniform8_node_shape (i : Nat) (hilt : i < 255) :
    (trailingOnes i = 0 →
       Arena8.newUniform.nodes i =
         { left := NodeRef.leaf i, right := NodeRef.leaf (i + 1) }) ∧
    (trailingOnes i ≠ 0 →
       Arena8.newUniform.nodes i =
         { left := NodeRef.internal (i - 2 ^ (trailingOnes i - 1)),
           right := NodeRef.internal (i - 2 ^ (trailingOnes i - 1) + 2 ^ trailingOnes i) }) ∧
    Arena8.newUniform.root = 127 := by
  revert i
  decide

/-- Witness for `uniform8_node_shape` at `i = 11` (`L = 2`): children are the
internal nodes `9` and `13`. -/
theorem uniform8_node_shape_witness :
    Arena8.newUniform.nodes 11 =
      { left := NodeRef.internal (11 - 2 ^ (trailingOnes 11 - 1)),
        right := NodeRef.internal (11 - 2 ^ (trailingOnes 11 - 1) + 2 ^ trailingOnes 11) } :=
  (uniform8_node_shape 11 (by decide)).2.1 (by decide)

/-- C8: one read attempt of either 16-bit symbol reader returns a clean end
(`Ok(None)`) on an empty source, an `UnexpectedEof` error on a single
remaining byte, and the two-byte symbol on two or more bytes. -/
theorem read16_partial_symbol (r : List Nat) :
    (r.length = 0 → readOne16BE r = .ok none ∧ readOne16LE r = .ok none) ∧
    (r.length = 1 →
      readOne16BE r = .error .unexpectedEof ∧ readOne16LE r = .error .unexpectedEof) ∧
    (2 ≤ r.length → ∃ b1 b2 rest, r = b1 :: b2 :: rest ∧
      readOne16BE r = .ok (some (b1 * 256 + b2, rest)) ∧
      readOne16LE r = .ok (some (b2 * 256 + b1, rest))) := by
  match r with
  | [] => exact ⟨fun _ => ⟨rfl, rfl⟩, fun h => by simp at h, fun h => by simp at h⟩
  | [b] => exact ⟨fun h => by simp at h, fun _ => ⟨rfl, rfl⟩, fun h => by simp at h⟩
  | b1 :: b2 :: rest =>
    exact ⟨fun h => by simp at h, fun h => by simp at h,
      fun _ => ⟨b1, b2, rest, rfl, rfl, rfl⟩⟩

/-- Witness for `read16_partial_symbol` at the sources `[]`, `[7]` and
`[1, 2, 3]`. -/
theorem read16_partial_symbol_witness :
    (readOne16BE ([] : List Nat) = .ok none ∧ readOne16LE ([] : List Nat) = .ok none) ∧
    (readOne16BE [7] = .error .unexpectedEof ∧ readOne16LE [7] = .error .unexpectedEof) ∧
    (∃ b1 b2 rest, [1, 2, 3] = b1 :: b2 :: rest ∧
      readOne16BE [1, 2, 3] = .ok (some (b1 * 256 + b2, rest)) ∧
      readOne16LE [1, 2, 3] = .ok (some (b2 * 256 + b1, rest))) :=
  ⟨(read16_partial_symbol []).1 rfl, (read16_partial_symbol [7]).2.1 rfl,
    (read16_partial_symbol [1, 2, 3]).2.2 (by decide)⟩

/-- C10: the CLI dispatch in `jan.rs` runs *compression* when the
`-d`/`--decompress` flag is given and *decompression* when it is absent —
the opposite of what the flag (and its own doc comment) promises. -/
theorem jan_dispatch_swapped :
    janDispatch true = CliAction.runCompress ∧
    janDispatch false = CliAction.runDecompress :=
  ⟨rfl, rfl⟩

end Splaycompress
